import Mathlib

/-!
Verification development for the `ssl` repository: a shallow embedding of the
streaming digest engine (`src/libs/hash.rs`), the MD5 compressor (`src/md5.rs`),
the SHA-256 compressor (`src/sha256.rs`), and the hex-digest / checksum-line
parsers (`src/hash/check.rs`).

Conventions of the embedding:
* machine integers are `Nat` with explicit `% 2^32` / `% 2^64` where the Rust
  code uses wrapping arithmetic, and plain `Nat` operations where the Rust code
  cannot overflow (`u8` promotions);
* a 64-byte block buffer is a `List Nat` of length 64;
* Rust operations that can panic (shift by an out-of-range amount, string
  slicing off a char boundary, `unwrap`) are `Option`-valued, `none` modelling
  the panic;
* `clone_from_slice` into `buf[start..start+len]` is `writeSlice buf start src`.
-/

set_option maxRecDepth 10000

/-- Models `self.buf[start..start + src.len()].clone_from_slice(src)`:
overwrite the slice of `l` beginning at `start` with `src`. -/
def writeSlice (l : List Nat) (start : Nat) (src : List Nat) : List Nat :=
  l.take start ++ src ++ l.drop (start + src.length)

/-- `Endian` from `src/libs/hash.rs`. -/
inductive Endian where
  | Big
  | Little
deriving DecidableEq, Repr

/-- `Hash.Writer<Ctx>` from `src/libs/hash.rs`; the compressor state `hasher` is a
type parameter, mirroring the `Ctx: Context` trait object.  `src/md5.rs`'s own
`Context` carries the same `buf`/`buf_seed`/`data_bytes_len` fields with the
identical buffering code, hard-wired to `Endian::Little`. -/
structure Hash.Writer (σ : Type) where
  buf : List Nat
  buf_seed : Nat
  data_bytes_len : Nat
  endian : Endian
  hasher : σ

/-- `Hash.Writer::new` from `src/libs/hash.rs`. -/
def Hash.Writer.new (hasher : σ) (endian : Endian) : Hash.Writer σ :=
  { buf := List.replicate 64 0, buf_seed := 0, data_bytes_len := 0,
    endian := endian, hasher := hasher }

/-- The `while self.buf_seed + buf.len() > CHUNK_BYTE_SIZE` loop of
`Hash.Writer::consume` (`src/libs/hash.rs` lines 174-180), encoded structurally on a
fuel argument; `buf_seed + data.length` fuel always suffices because every
iteration strictly decreases that measure (by at least 64). -/
def consumeLoopF (c : σ → List Nat → σ) :
    Nat → σ → List Nat → Nat → List Nat → σ × List Nat × Nat × List Nat
  | 0, h, buf, s, d => (h, buf, s, d)
  | fuel+1, h, buf, s, d =>
    if 64 < s + d.length then
      let buf1 := writeSlice buf s (d.take (64 - s))
      consumeLoopF c fuel (c h buf1) buf1 0 (d.drop (64 - s))
    else
      (h, buf, s, d)

/-- The loop of `Hash.Writer::consume` followed by the trailing
`self.buf[self.buf_seed..self.buf_seed + buf.len()].clone_from_slice(buf);
self.buf_seed += buf.len()` — everything `consume` does except the byte-counter
update.  State triple is `(hasher, buf, buf_seed)`. -/
def consumePure (c : σ → List Nat → σ) :
    σ × List Nat × Nat → List Nat → σ × List Nat × Nat
  | (h, buf, s), d =>
    let r := consumeLoopF c (s + d.length) h buf s d
    (r.1, writeSlice r.2.1 r.2.2.1 r.2.2.2, r.2.2.1 + r.2.2.2.length)

/-- `Hash.Writer::consume` from `src/libs/hash.rs` (also `Context::consume` in
`src/md5.rs`): add the incoming length to the wrapping `usize` byte counter,
run the compression loop, buffer the remainder. -/
def Hash.Writer.consume (c : σ → List Nat → σ) (w : Hash.Writer σ) (d : List Nat) :
    Hash.Writer σ :=
  let r := consumePure c (w.hasher, w.buf, w.buf_seed) d
  { buf := r.2.1, buf_seed := r.2.2,
    data_bytes_len := (w.data_bytes_len + d.length) % 2 ^ 64,
    endian := w.endian, hasher := r.1 }

/-- `PADDING` from `src/libs/hash.rs` / `src/md5.rs`: `0x80` then 63 zeros. -/
def PADDING : List Nat := 0x80 :: List.replicate 63 0

/-- `Hash.Writer::fill_data_len` from `src/libs/hash.rs`: write the 8-byte bit
length into `buf[56..64]`, most significant byte first for `Endian::Big`,
least significant first for `Endian::Little` (the latter is also
`Context::fill_data_len` in `src/md5.rs`). -/
def fillDataLen (e : Endian) (buf : List Nat) (bits : Nat) : List Nat :=
  match e with
  | .Big =>
    ((((((((buf.set 63 (bits &&& 0xff)).set 62 ((bits >>> 8) &&& 0xff)).set 61
      ((bits >>> 16) &&& 0xff)).set 60 ((bits >>> 24) &&& 0xff)).set 59
      ((bits >>> 32) &&& 0xff)).set 58 ((bits >>> 40) &&& 0xff)).set 57
      ((bits >>> 48) &&& 0xff)).set 56 ((bits >>> 56) &&& 0xff))
  | .Little =>
    ((((((((buf.set 56 (bits &&& 0xff)).set 57 ((bits >>> 8) &&& 0xff)).set 58
      ((bits >>> 16) &&& 0xff)).set 59 ((bits >>> 24) &&& 0xff)).set 60
      ((bits >>> 32) &&& 0xff)).set 61 ((bits >>> 40) &&& 0xff)).set 62
      ((bits >>> 48) &&& 0xff)).set 63 ((bits >>> 56) &&& 0xff))

/-- The 8 bytes that `fill_data_len` deposits in `buf[56..64]`, in buffer
order: least significant byte first for `Endian::Little`, most significant
first for `Endian::Big`. -/
def lenBytes (e : Endian) (bits : Nat) : List Nat :=
  match e with
  | .Little =>
    [bits &&& 0xff, (bits >>> 8) &&& 0xff, (bits >>> 16) &&& 0xff,
     (bits >>> 24) &&& 0xff, (bits >>> 32) &&& 0xff, (bits >>> 40) &&& 0xff,
     (bits >>> 48) &&& 0xff, (bits >>> 56) &&& 0xff]
  | .Big =>
    [(bits >>> 56) &&& 0xff, (bits >>> 48) &&& 0xff, (bits >>> 40) &&& 0xff,
     (bits >>> 32) &&& 0xff, (bits >>> 24) &&& 0xff, (bits >>> 16) &&& 0xff,
     (bits >>> 8) &&& 0xff, bits &&& 0xff]

/-- `Hash.Writer::compute` from `src/libs/hash.rs` (also `Context::consume_final`
in `src/md5.rs`): Merkle–Damgård finalization.  One final block when
`buf_seed <= 64 - 9`, otherwise two, with the `pading_bytes_len == 0` special
case placing the `0x80` terminator at the head of the second block. -/
def Hash.Writer.compute (c : σ → List Nat → σ) (gd : σ → δ) (w : Hash.Writer σ) : δ :=
  let data_bits_len := (w.data_bytes_len * 8) % 2 ^ 64
  if w.buf_seed ≤ 64 - (1 + 8) then
    let pading_bytes_len := 64 - 8 - w.buf_seed
    let buf1 := writeSlice w.buf w.buf_seed (PADDING.take pading_bytes_len)
    let buf2 := fillDataLen w.endian buf1 data_bits_len
    gd (c w.hasher buf2)
  else
    let pading_bytes_len := 64 - w.buf_seed
    let buf1 := writeSlice w.buf w.buf_seed (PADDING.take pading_bytes_len)
    let h1 := c w.hasher buf1
    let buf2 := writeSlice buf1 0 (PADDING.drop 8)
    let buf3 := if pading_bytes_len = 0 then buf2.set 0 0x80 else buf2
    let buf4 := fillDataLen w.endian buf3 data_bits_len
    gd (c h1 buf4)

/-- The sequence of 64-byte blocks that `Hash.Writer::compute` feeds to
`Context::compress` during finalization, observed by instantiating the
compressor with a trace accumulator. -/
def Hash.Writer.finalBlocks (w : Hash.Writer σ) : List (List Nat) :=
  Hash.Writer.compute (fun tr blk => tr ++ [blk]) id
    { buf := w.buf, buf_seed := w.buf_seed, data_bytes_len := w.data_bytes_len,
      endian := w.endian, hasher := ([] : List (List Nat)) }

/-! ## Bit helpers from `src/md5.rs` / `src/helper.rs` (= `src/libs/bitutils.rs`) -/

/-- Bitwise complement on `u32`: `!x` in Rust. -/
def bnot32 (x : Nat) : Nat := x ^^^ 0xffffffff

/-- `left_rotate` from `src/md5.rs` (also `src/libs/bitutils.rs`):
`(x << s) | (x >> (32 - s))` on `u32`.  The `u32` shift truncates, hence
`% 2^32`; a shift amount of 32 or more panics, and for `s = 0` the right shift
`x >> 32` panics, so the result is `none` unless `0 < s < 32`. -/
def left_rotate (x s : Nat) : Option Nat :=
  if 0 < s ∧ s < 32 then some (((x <<< s) % 2 ^ 32) ||| (x >>> (32 - s)))
  else none

/-- `right_rotate` from `src/helper.rs` (also `src/libs/bitutils.rs`):
`(x >> s) | (x << (32 - s))` on `u32`; `none` models the shift-overflow panic
for `s = 0` or `s ≥ 32`. -/
def right_rotate (x s : Nat) : Option Nat :=
  if 0 < s ∧ s < 32 then some ((x >>> s) ||| ((x <<< (32 - s)) % 2 ^ 32))
  else none

/-- `as_u32_le` from `src/md5.rs`: little-endian `u32` from 4 bytes (the `+`
cannot overflow `u32` for byte inputs, so it is plain addition). -/
def as_u32_le (bytes : List Nat) : Nat :=
  (bytes[0]! <<< 0) + (bytes[1]! <<< 8) + (bytes[2]! <<< 16) + (bytes[3]! <<< 24)

/-- `as_u32_be` from `src/helper.rs`: big-endian `u32` from 4 bytes. -/
def as_u32_be (bytes : List Nat) : Nat :=
  (bytes[0]! <<< 24) + (bytes[1]! <<< 16) + (bytes[2]! <<< 8) + (bytes[3]! <<< 0)

/-- `as_u8_le` from `src/md5.rs`: the 4 bytes of a `u32`, least significant
first. -/
def as_u8_le (x : Nat) : List Nat :=
  [x &&& 0xff, (x >>> 8) &&& 0xff, (x >>> 16) &&& 0xff, (x >>> 24) &&& 0xff]

/-- `as_u8_be` from `src/helper.rs`: the 4 bytes of a `u32`, most significant
first. -/
def as_u8_be (x : Nat) : List Nat :=
  [(x >>> 24) &&& 0xff, (x >>> 16) &&& 0xff, (x >>> 8) &&& 0xff, x &&& 0xff]

/-! ## MD5 compressor, `src/md5.rs` -/

/-- The per-round left-rotation table `S` from `src/md5.rs`. -/
def Md5.S : List Nat :=
  [7, 12, 17, 22, 7, 12, 17, 22, 7, 12, 17, 22, 7, 12, 17, 22,
   5, 9, 14, 20, 5, 9, 14, 20, 5, 9, 14, 20, 5, 9, 14, 20,
   4, 11, 16, 23, 4, 11, 16, 23, 4, 11, 16, 23, 4, 11, 16, 23,
   6, 10, 15, 21, 6, 10, 15, 21, 6, 10, 15, 21, 6, 10, 15, 21]

/-- The additive round-constant table `K` from `src/md5.rs` (the source's
hex constants, written here in decimal). -/
def Md5.K : List Nat :=
  [3614090360, 3905402710, 606105819, 3250441966,
   4118548399, 1200080426, 2821735955, 4249261313,
   1770035416, 2336552879, 4294925233, 2304563134,
   1804603682, 4254626195, 2792965006, 1236535329,
   4129170786, 3225465664, 643717713, 3921069994,
   3593408605, 38016083, 3634488961, 3889429448,
   568446438, 3275163606, 4107603335, 1163531501,
   2850285829, 4243563512, 1735328473, 2368359562,
   4294588738, 2272392833, 1839030562, 4259657740,
   2763975236, 1272893353, 4139469664, 3200236656,
   681279174, 3936430074, 3572445317, 76029189,
   3654602809, 3873151461, 530742520, 3299628645,
   4096336452, 1126891415, 2878612391, 4237533241,
   1700485571, 2399980690, 4293915773, 2240044497,
   1873313359, 4264355552, 2734768916, 1309151649,
   4149444226, 3174756917, 718787259, 3951481745]

/-- `split_words` from `src/md5.rs`: the 16 little-endian words of a block. -/
def Md5.split_words (chunk : List Nat) : List Nat :=
  (List.range 16).map fun i => as_u32_le ((chunk.drop (4 * i)).take 4)

/-- MD5 running state `(a_s, b_s, c_s, d_s)` of `Context` in `src/md5.rs`. -/
abbrev Md5.State := Nat × Nat × Nat × Nat

/-- One iteration of the 64-round loop in `Context::eat_chunk`
(`src/md5.rs`): quartile-selected nonlinear function and message index,
wrapping adds, and the table-driven left rotation. -/
def Md5.round (words : List Nat) (t : Md5.State) (i : Nat) : Option Md5.State :=
  let a := t.1
  let b := t.2.1
  let c := t.2.2.1
  let d := t.2.2.2
  let f :=
    if i < 16 then (b &&& c) ||| (bnot32 b &&& d)
    else if i < 32 then (d &&& b) ||| (bnot32 d &&& c)
    else if i < 48 then b ^^^ c ^^^ d
    else c ^^^ (b ||| bnot32 d)
  let g :=
    if i < 16 then i
    else if i < 32 then (5 * i + 1) % 16
    else if i < 48 then (3 * i + 5) % 16
    else (7 * i) % 16
  let f := (f + ((a + Md5.K[i]!) % 2 ^ 32 + words[g]!) % 2 ^ 32) % 2 ^ 32
  match left_rotate f Md5.S[i]! with
  | none => none
  | some rot => some (d, (b + rot) % 2 ^ 32, b, c)

/-- `Context::eat_chunk` from `src/md5.rs`: 64 rounds then the wrapping
addition of the working copy back into the state. -/
def Md5.eat_chunk (st : Md5.State) (buf : List Nat) : Option Md5.State :=
  let words := Md5.split_words buf
  ((List.range 64).foldlM (Md5.round words) st).map fun t =>
    ((st.1 + t.1) % 2 ^ 32, (st.2.1 + t.2.1) % 2 ^ 32,
     (st.2.2.1 + t.2.2.1) % 2 ^ 32, (st.2.2.2 + t.2.2.2) % 2 ^ 32)

/-- `Digest::from_state` from `src/md5.rs`: serialize the four state words
into 16 bytes, little-endian, in order A,B,C,D. -/
def Md5.Digest.from_state (a b c d : Nat) : List Nat :=
  writeSlice (writeSlice (writeSlice (writeSlice (List.replicate 16 0)
    0 (as_u8_le a)) 4 (as_u8_le b)) 8 (as_u8_le c)) 12 (as_u8_le d)

/-- The MD5 initialization constants `A0..D0` from `src/md5.rs`, in decimal. -/
def Md5.init : Md5.State := (1732584193, 4023233417, 2562383102, 271733878)

/-- The MD5 compressor as a `Context` instance for the generic writer; the
state is `Option`-threaded so a panic inside `eat_chunk` propagates. -/
def Md5.compressC (st : Option Md5.State) (blk : List Nat) : Option Md5.State :=
  st.bind fun s => Md5.eat_chunk s blk

/-- `Context::get_digest` for MD5 (`Context::compute` + `Digest::from_state`
in `src/md5.rs`). -/
def Md5.get_digest (st : Option Md5.State) : Option (List Nat) :=
  st.map fun t => Md5.Digest.from_state t.1 t.2.1 t.2.2.1 t.2.2.2

/-- The writer built by `md5()` in `src/libs/hash.rs` and `md5_hash_file` in
`src/hash.rs`: fresh MD5 context, `Endian::Little`. -/
def Md5.writer : Hash.Writer (Option Md5.State) :=
  Hash.Writer.new (some Md5.init) Endian.Little

/-- `md5()` from `src/libs/hash.rs` for an in-memory byte sequence: feed the
bytes, then `compute`.  `none` would model a panic; the digest is 16 bytes. -/
def Md5.hash (data : List Nat) : Option (List Nat) :=
  Hash.Writer.compute Md5.compressC Md5.get_digest
    (Hash.Writer.consume Md5.compressC Md5.writer data)

/-! ## SHA-256 compressor, `src/sha256.rs` -/

/-- The round-constant table `K` from `src/sha256.rs` (the source's hex
constants, written here in decimal). -/
def Sha256.K : List Nat :=
  [1116352408, 1899447441, 3049323471, 3921009573,
   961987163, 1508970993, 2453635748, 2870763221,
   3624381080, 310598401, 607225278, 1426881987,
   1925078388, 2162078206, 2614888103, 3248222580,
   3835390401, 4022224774, 264347078, 604807628,
   770255983, 1249150122, 1555081692, 1996064986,
   2554220882, 2821834349, 2952996808, 3210313671,
   3336571891, 3584528711, 113926993, 338241895,
   666307205, 773529912, 1294757372, 1396182291,
   1695183700, 1986661051, 2177026350, 2456956037,
   2730485921, 2820302411, 3259730800, 3345764771,
   3516065817, 3600352804, 4094571909, 275423344,
   430227734, 506948616, 659060556, 883997877,
   958139571, 1322822218, 1537002063, 1747873779,
   1955562222, 2024104815, 2227730452, 2361852424,
   2428436474, 2756734187, 3204031479, 3329325298]

/-- The body of the `for i in 16..64` message-schedule loop in `get_words`
(`src/sha256.rs`), producing the word at index `ws.length`. -/
def Sha256.scheduleStep (ws : List Nat) : Option Nat :=
  let i := ws.length
  match right_rotate ws[i - 15]! 7, right_rotate ws[i - 15]! 18,
        right_rotate ws[i - 2]! 17, right_rotate ws[i - 2]! 19 with
  | some a1, some a2, some b1, some b2 =>
    let s0 := a1 ^^^ a2 ^^^ (ws[i - 15]! >>> 3)
    let s1 := b1 ^^^ b2 ^^^ (ws[i - 2]! >>> 10)
    some ((ws[i - 16]! + ((s0 + ws[i - 7]!) % 2 ^ 32 + s1) % 2 ^ 32) % 2 ^ 32)
  | _, _, _, _ => none

/-- Iterate `scheduleStep` to extend the schedule by `k` words. -/
def Sha256.scheduleRec : List Nat → Nat → Option (List Nat)
  | ws, 0 => some ws
  | ws, k+1 =>
    match Sha256.scheduleStep ws with
    | none => none
    | some w => Sha256.scheduleRec (ws ++ [w]) k

/-- `get_words` from `src/sha256.rs`: the 16 big-endian block words extended
to the 64-word message schedule. -/
def Sha256.get_words (chunk : List Nat) : Option (List Nat) :=
  Sha256.scheduleRec
    ((List.range 16).map fun i => as_u32_be ((chunk.drop (4 * i)).take 4)) 48

/-- The 8-variable working tuple `(a,b,c,d,e,f,g,h)` of `Context::compress`. -/
abbrev Sha256.Vars := Nat × Nat × Nat × Nat × Nat × Nat × Nat × Nat

/-- One iteration of the 64-round loop in `Context::compress`
(`src/sha256.rs`). -/
def Sha256.round (words : List Nat) (t : Sha256.Vars) (i : Nat) :
    Option Sha256.Vars :=
  let a := t.1
  let b := t.2.1
  let c := t.2.2.1
  let d := t.2.2.2.1
  let e := t.2.2.2.2.1
  let f := t.2.2.2.2.2.1
  let g := t.2.2.2.2.2.2.1
  let h := t.2.2.2.2.2.2.2
  match right_rotate e 6, right_rotate e 11, right_rotate e 25,
        right_rotate a 2, right_rotate a 13, right_rotate a 22 with
  | some e6, some e11, some e25, some a2, some a13, some a22 =>
    let s1 := e6 ^^^ e11 ^^^ e25
    let ch := (e &&& f) ^^^ (bnot32 e &&& g)
    let temp1 :=
      (h + (((s1 + ch) % 2 ^ 32 + Sha256.K[i]!) % 2 ^ 32 + words[i]!) % 2 ^ 32)
        % 2 ^ 32
    let s0 := a2 ^^^ a13 ^^^ a22
    let maj := (a &&& b) ^^^ (a &&& c) ^^^ (b &&& c)
    let temp2 := (s0 + maj) % 2 ^ 32
    some ((temp1 + temp2) % 2 ^ 32, a, b, c, (d + temp1) % 2 ^ 32, e, f, g)
  | _, _, _, _, _, _ => none

/-- `Context::compress` from `src/sha256.rs` on the 8-word state list. -/
def Sha256.compress (state : List Nat) (chunk : List Nat) :
    Option (List Nat) :=
  match Sha256.get_words chunk with
  | none => none
  | some words =>
    match (List.range 64).foldlM (Sha256.round words)
        (state[0]!, state[1]!, state[2]!, state[3]!,
         state[4]!, state[5]!, state[6]!, state[7]!) with
    | none => none
    | some t =>
      some [(t.1 + state[0]!) % 2 ^ 32, (t.2.1 + state[1]!) % 2 ^ 32,
            (t.2.2.1 + state[2]!) % 2 ^ 32, (t.2.2.2.1 + state[3]!) % 2 ^ 32,
            (t.2.2.2.2.1 + state[4]!) % 2 ^ 32,
            (t.2.2.2.2.2.1 + state[5]!) % 2 ^ 32,
            (t.2.2.2.2.2.2.1 + state[6]!) % 2 ^ 32,
            (t.2.2.2.2.2.2.2 + state[7]!) % 2 ^ 32]

/-- The SHA-256 initialization constants from `Context::new` in
`src/sha256.rs`, in decimal. -/
def Sha256.init : List Nat :=
  [1779033703, 3144134277, 1013904242, 2773480762,
   1359893119, 2600822924, 528734635, 1541459225]

/-- The SHA-256 compressor as a `Context` instance for the generic writer. -/
def Sha256.compressC (st : Option (List Nat)) (blk : List Nat) :
    Option (List Nat) :=
  st.bind fun s => Sha256.compress s blk

/-- `Context::get_digest` from `src/sha256.rs`: the 8 state words serialized
big-endian, left to right. -/
def Sha256.get_digest (st : Option (List Nat)) : Option (List Nat) :=
  st.map fun s =>
    (List.range 8).foldl
      (fun digest i => writeSlice digest (i * 4) (as_u8_be s[i]!))
      (List.replicate 32 0)

/-- The writer built by `sha256()` in `src/libs/hash.rs` and
`sha256_hash_file` in `src/hash.rs`: fresh SHA-256 context, `Endian::Big`. -/
def Sha256.writer : Hash.Writer (Option (List Nat)) :=
  Hash.Writer.new (some Sha256.init) Endian.Big

/-- `sha256()` from `src/libs/hash.rs` for an in-memory byte sequence. -/
def Sha256.hash (data : List Nat) : Option (List Nat) :=
  Hash.Writer.compute Sha256.compressC Sha256.get_digest
    (Hash.Writer.consume Sha256.compressC Sha256.writer data)

/-! ## Digest rendering (`impl fmt::Display for Digest`) -/

/-- One lowercase hex digit, as produced by Rust's `{:x}` formatting. -/
def hexDigitChar (n : Nat) : Char :=
  if n < 10 then Char.ofNat (48 + n) else Char.ofNat (87 + n)

/-- The `Display` implementation of both `Digest` types (`src/md5.rs`,
`src/sha256.rs`): each byte printed as `{:0>2x}`, two lowercase zero-padded
hex characters, in array order. -/
def renderHex (bytes : List Nat) : List Char :=
  bytes.flatMap fun b => [hexDigitChar (b / 16), hexDigitChar (b % 16)]

/-! ## Rust string model

Rust `&str` is UTF-8 bytes; `s.len()` is the byte length and `&s[a..b]`
panics when `a` or `b` is not a char boundary.  A string is modelled as its
`List Char`, with byte positions derived from `Char.utf8Size`. -/

/-- `str::len`: the UTF-8 byte length. -/
def strByteLen (s : List Char) : Nat := (s.map Char.utf8Size).sum

/-- Drop `n` UTF-8 bytes; `none` when `n` is not a char boundary or exceeds
the string. -/
def strDropBytes : List Char → Nat → Option (List Char)
  | s, 0 => some s
  | [], _+1 => none
  | c :: cs, n+1 =>
    if c.utf8Size ≤ n + 1 then strDropBytes cs (n + 1 - c.utf8Size) else none

/-- Take `n` UTF-8 bytes; `none` when `n` is not a char boundary of the
string or exceeds it. -/
def strTakeBytes : List Char → Nat → Option (List Char)
  | _, 0 => some []
  | [], _+1 => none
  | c :: cs, n+1 =>
    if c.utf8Size ≤ n + 1 then
      (strTakeBytes cs (n + 1 - c.utf8Size)).map (c :: ·)
    else none

/-- Rust `&s[a..b]`: `none` models the panic (range out of bounds or not on
char boundaries). -/
def sliceStr (s : List Char) (a b : Nat) : Option (List Char) :=
  if a ≤ b ∧ b ≤ strByteLen s then
    (strDropBytes s a).bind fun t => strTakeBytes t (b - a)
  else none

/-- `char::to_digit(16)`: hex digit value of a character. -/
def to_digit16 (c : Char) : Option Nat :=
  if 48 ≤ c.toNat ∧ c.toNat ≤ 57 then some (c.toNat - 48)
  else if 97 ≤ c.toNat ∧ c.toNat ≤ 102 then some (c.toNat - 87)
  else if 65 ≤ c.toNat ∧ c.toNat ≤ 70 then some (c.toNat - 55)
  else none

/-- The digit-accumulation loop of `u8::from_str_radix(_, 16)`, with the
`checked_mul` / `checked_add` overflow test against `u8::MAX`. -/
def fromStrRadixGo : Nat → List Char → Option Nat
  | acc, [] => some acc
  | acc, c :: cs =>
    match to_digit16 c with
    | none => none
    | some d => if acc * 16 + d ≤ 255 then fromStrRadixGo (acc * 16 + d) cs else none

/-- `u8::from_str_radix(s, 16)` from Rust core: empty input is an error, a
leading `'+'` is stripped (a bare `"+"` is an error; `'-'` on an unsigned
type is just an invalid digit), then hex digits accumulate with an overflow
check. -/
def from_str_radix_u8_16 (s : List Char) : Option Nat :=
  match s with
  | [] => none
  | c :: rest =>
    if c = '+' then (if rest.isEmpty then none else fromStrRadixGo 0 rest)
    else fromStrRadixGo 0 s

/-- `ParseDigestError` from `src/hash/check.rs` (the `ParseByte` payload, a
`std::num::ParseIntError`, is collapsed). -/
inductive ParseDigestError where
  | InvalidStrLen (expected actual : Nat)
  | ParseByte
deriving DecidableEq, Repr

/-- Decidable equality for `Except`, so results of the fallible parsers can
be computed on concrete inputs. -/
instance {ε α : Type} [DecidableEq ε] [DecidableEq α] : DecidableEq (Except ε α) := fun x y =>
  match x, y with
  | .error a, .error b =>
    if h : a = b then .isTrue (by rw [h])
    else .isFalse (by intro hh; cases hh; exact h rfl)
  | .ok a, .ok b =>
    if h : a = b then .isTrue (by rw [h])
    else .isFalse (by intro hh; cases hh; exact h rfl)
  | .error _, .ok _ => .isFalse (by intro hh; cases hh)
  | .ok _, .error _ => .isFalse (by intro hh; cases hh)

/-- The shared byte loop of `parse_digest_md5` / `parse_digest_sha256`
(`src/hash/check.rs` lines 228-230 / 245-247) and `Digest::from_str`
(`src/md5.rs` lines 210-214, `src/sha256.rs` lines 41-45): for each output
index `i` starting at the given position, slice `s[2*i..2*i + 2]` and parse it
with `u8::from_str_radix(_, 16)`.  Outer `none` is a slicing panic; an inner
`error` is the radix error (which `check.rs` propagates with `?` and
`from_str` unwraps). -/
def parseBytesLoop (s : List Char) : Nat → Nat → Option (Except ParseDigestError (List Nat))
  | _, 0 => some (.ok [])
  | i, k+1 =>
    match sliceStr s (2 * i) (2 * i + 2) with
    | none => none
    | some g =>
      match from_str_radix_u8_16 g with
      | none => some (.error .ParseByte)
      | some b => (parseBytesLoop s (i + 1) k).map (Except.map (b :: ·))

/-- Modelled from the spec: `md5::DIGEST_STR_LEN` lives in the missing file
`src/libs/hash/md5.rs`; the spec fixes it as twice the 16-byte digest
length. -/
def Md5.DIGEST_STR_LEN : Nat := 32

/-- Modelled from the spec: `sha256::DIGEST_STR_LEN` lives in the missing
file `src/libs/hash/sha256.rs`; the spec fixes it as twice the 32-byte digest
length (`src/sha256.rs` has `DIGEST_BYTE_SIZE = 32`). -/
def Sha256.DIGEST_STR_LEN : Nat := 64

/-- `parse_digest_md5` from `src/hash/check.rs`: length check first, then the
byte loop.  Outer `none` models a panic. -/
def Check.parse_digest_md5 (s : List Char) :
    Option (Except ParseDigestError (List Nat)) :=
  if strByteLen s ≠ Md5.DIGEST_STR_LEN then
    some (.error (.InvalidStrLen Md5.DIGEST_STR_LEN (strByteLen s)))
  else parseBytesLoop s 0 16

/-- `parse_digest_sha256` from `src/hash/check.rs`. -/
def Check.parse_digest_sha256 (s : List Char) :
    Option (Except ParseDigestError (List Nat)) :=
  if strByteLen s ≠ Sha256.DIGEST_STR_LEN then
    some (.error (.InvalidStrLen Sha256.DIGEST_STR_LEN (strByteLen s)))
  else parseBytesLoop s 0 32

/-- `Digest::from_str` from `src/md5.rs`: no length check, and the radix
result is `unwrap`ped, so both a bad slice and a bad hex pair panic
(`none`); on success it always returns `Ok`. -/
def Md5.Digest.from_str (s : List Char) : Option (List Nat) :=
  match parseBytesLoop s 0 16 with
  | some (.ok bs) => some bs
  | _ => none

/-- `Digest::from_str` from `src/sha256.rs`, same shape with 32 bytes. -/
def Sha256.Digest.from_str (s : List Char) : Option (List Nat) :=
  match parseBytesLoop s 0 32 with
  | some (.ok bs) => some bs
  | _ => none

/-! ## Checksum-line parsing, `src/hash/check.rs` -/

/-- `hash::Func` from `src/libs/hash.rs`. -/
inductive Hash.Func where
  | MD5
  | SHA256
deriving DecidableEq, Repr

/-- `hash::Digest` from `src/libs/hash.rs`: an algorithm-tagged digest. -/
inductive Hash.Digest where
  | MD5 (d : List Nat)
  | SHA256 (d : List Nat)
deriving DecidableEq, Repr

/-- `ParseChecksumLineError` from `src/hash/check.rs`. -/
inductive ParseChecksumLineError where
  | UnrecognizeLine
  | CapturePath
  | CaptureDigest
  | ParseDigest (e : ParseDigestError)
deriving DecidableEq, Repr

/-- The regex character class `[[:alpha:]|0-9]` used by every digest capture
in `src/hash/check.rs`: ASCII letters, the literal `|`, and digits. -/
def isClassChar (c : Char) : Bool := c.isAlpha || c = '|' || c.isDigit

/-- The POSIX class `[[:space:]]`. -/
def isSpaceClass (c : Char) : Bool :=
  c = ' ' || c = '\t' || c = '\n' || c = '\x0b' || c = '\x0c' || c = '\r'

/-- `.+$` (no multiline): one or more characters other than newline, to the
end. -/
def dotPlusOk (p : List Char) : Bool := !p.isEmpty && p.all (· ≠ '\n')

/-- Backtracking search for `[[:space:]]+(.+)$` after the digest capture of a
GNU-style line: the greedy space run tries the longest split first. -/
def gnuTailGo (rest : List Char) : Nat → Option (List Char)
  | 0 => none
  | k+1 =>
    if (rest.take (k+1)).all isSpaceClass ∧ dotPlusOk (rest.drop (k+1)) then
      some (rest.drop (k+1))
    else gnuTailGo rest k

/-- Matcher for the GNU-style regexes `^([[:alpha:]|0-9]{n})[[:space:]]+(.+)$`
of `src/hash/check.rs` (`n` = 64 for SHA-256, 32 for MD5); returns the two
captures `(digest, path)`. -/
def gnuStyleMatch (n : Nat) (line : List Char) :
    Option (List Char × List Char) :=
  let digest := line.take n
  let rest := line.drop n
  if digest.length = n ∧ digest.all isClassChar then
    (gnuTailGo rest rest.length).map fun path => (digest, path)
  else none

/-- Matcher for the BSD-style regexes
`^NAME \((.+)\)[[:space:]]*={1}[[:space:]]*([[:alpha:]|0-9]{n})$` of
`src/hash/check.rs`, parsed deterministically from the anchored ends (the
greedy `(.+)` makes the `) [[:space:]]* = [[:space:]]*` tail minimal);
returns the captures `(path, digest)`. -/
def bsdStyleMatch (name : List Char) (n : Nat) (line : List Char) :
    Option (List Char × List Char) :=
  if line.take (name.length + 2) = name ++ [' ', '('] then
    let rb := (line.drop (name.length + 2)).reverse
    let digestRev := rb.take n
    if digestRev.length = n ∧ digestRev.all isClassChar then
      match (rb.drop n).dropWhile isSpaceClass with
      | '=' :: r3 =>
        match r3.dropWhile isSpaceClass with
        | ')' :: pathRev =>
          if dotPlusOk pathRev.reverse then some (pathRev.reverse, digestRev.reverse)
          else none
        | _ => none
      | _ => none
    else none
  else none

/-- `parse_digest` from `src/hash/check.rs`: dispatch on the hash function
tag. -/
def Check.parse_digest (s : List Char) (hf : Hash.Func) :
    Option (Except ParseDigestError Hash.Digest) :=
  match hf with
  | .MD5 => (Check.parse_digest_md5 s).map (Except.map Hash.Digest.MD5)
  | .SHA256 => (Check.parse_digest_sha256 s).map (Except.map Hash.Digest.SHA256)

/-- `parse_checksum_line` from `src/hash/check.rs` lines 126-173: four
pattern branches.  The third branch (MD5 GNU style) and the fourth branch
(which re-tests the MD5 GNU regex, with the capture roles swapped) both tag
the result `hash::Func::SHA256`, exactly as the source does. -/
def Check.parse_checksum_line (line : List Char) :
    Option (Except ParseChecksumLineError (List Char × Hash.Digest)) :=
  let branch : Option (List Char × List Char × Hash.Func) :=
    match gnuStyleMatch 64 line with
    | some (digest, path) => some (path, digest, Hash.Func.SHA256)
    | none =>
      match bsdStyleMatch "SHA256".toList 64 line with
      | some (path, digest) => some (path, digest, Hash.Func.SHA256)
      | none =>
        match gnuStyleMatch 32 line with
        | some (digest, path) => some (path, digest, Hash.Func.SHA256)
        | none =>
          match gnuStyleMatch 32 line with
          | some (g1, g2) => some (g1, g2, Hash.Func.SHA256)
          | none => none
  match branch with
  | none => some (.error .UnrecognizeLine)
  | some (path, digest, hf) =>
    (Check.parse_digest digest hf).map fun r =>
      match r with
      | .error e => .error (.ParseDigest e)
      | .ok d => .ok (path, d)

/-- The claim's (and spec's) notion of a valid hex byte, stated from the
spec's words for comparison with the source behaviour: exactly two hex
digits. -/
def specValidHexByte (g : List Char) : Bool :=
  g.length == 2 && g.all fun c => c.isDigit || ('a' ≤ c ∧ c ≤ 'f') || ('A' ≤ c ∧ c ≤ 'F')

/-! ## Lemmas: `writeSlice` algebra -/

theorem writeSlice_nil (l : List Nat) (start : Nat) : writeSlice l start [] = l := by
  simp [writeSlice]

theorem writeSlice_length (l : List Nat) (start : Nat) (src : List Nat)
    (h : start + src.length ≤ l.length) :
    (writeSlice l start src).length = l.length := by
  simp [writeSlice]
  omega

theorem writeSlice_append (l : List Nat) (start : Nat) (x y : List Nat)
    (h : start ≤ l.length) :
    writeSlice l start (x ++ y) = writeSlice (writeSlice l start x) (start + x.length) y := by
  have htk : (l.take start).length = start := by simp [List.length_take]; omega
  have hC : (l.take start ++ x).length = start + x.length := by
    simp [List.length_append, htk]
  simp only [writeSlice, List.length_append, ← List.append_assoc]
  conv_rhs => rw [List.take_left' hC]
  conv_rhs => rw [List.drop_append_eq_append_drop]
  conv_rhs =>
    rw [List.drop_eq_nil_of_le
      (show (l.take start ++ x).length ≤ start + x.length + y.length by omega)]
  conv_rhs =>
    rw [hC, show start + x.length + y.length - (start + x.length) = y.length from by omega,
      List.drop_drop]
  rw [show start + (x.length + y.length) = start + x.length + y.length from
    (Nat.add_assoc start x.length y.length).symm]
  simp [List.append_assoc]

/-! ## Lemmas: the consume loop -/

theorem consumeLoopF_of_le (c : σ → List Nat → σ) (fuel : Nat) (h : σ)
    (buf : List Nat) (s : Nat) (d : List Nat) (hle : s + d.length ≤ 64) :
    consumeLoopF c fuel h buf s d = (h, buf, s, d) := by
  cases fuel with
  | zero => rfl
  | succ k =>
    simp only [consumeLoopF]
    rw [if_neg (by omega)]

theorem consumeLoopF_fuel (c : σ → List Nat → σ) :
    ∀ (n m : Nat) (h : σ) (buf : List Nat) (s : Nat) (d : List Nat),
      s + d.length ≤ n → s + d.length ≤ m →
      consumeLoopF c n h buf s d = consumeLoopF c m h buf s d := by
  intro n
  induction n with
  | zero =>
    intro m h buf s d hn hm
    rw [consumeLoopF_of_le _ _ _ _ _ _ (by omega),
      consumeLoopF_of_le _ _ _ _ _ _ (by omega)]
  | succ n ih =>
    intro m h buf s d hn hm
    by_cases hc : 64 < s + d.length
    · obtain ⟨m', rfl⟩ : ∃ m', m = m' + 1 := ⟨m - 1, by omega⟩
      simp only [consumeLoopF, if_pos hc]
      apply ih
      · simp only [List.length_drop]
        omega
      · simp only [List.length_drop]
        omega
    · rw [consumeLoopF_of_le _ _ _ _ _ _ (by omega),
        consumeLoopF_of_le _ _ _ _ _ _ (by omega)]

theorem consumePure_of_le (c : σ → List Nat → σ) (h : σ) (buf : List Nat)
    (s : Nat) (d : List Nat) (hle : s + d.length ≤ 64) :
    consumePure c (h, buf, s) d = (h, writeSlice buf s d, s + d.length) := by
  simp only [consumePure]
  rw [consumeLoopF_of_le _ _ _ _ _ _ hle]

theorem consumePure_step (c : σ → List Nat → σ) (h : σ) (buf : List Nat)
    (s : Nat) (d : List Nat) (hgt : 64 < s + d.length) :
    consumePure c (h, buf, s) d =
      consumePure c (c h (writeSlice buf s (d.take (64 - s))),
        writeSlice buf s (d.take (64 - s)), 0) (d.drop (64 - s)) := by
  simp only [consumePure]
  obtain ⟨k, hk⟩ : ∃ k, s + d.length = k + 1 := ⟨s + d.length - 1, by omega⟩
  rw [hk]
  simp only [consumeLoopF]
  simp only [if_pos hgt]
  rw [consumeLoopF_fuel c k (0 + (d.drop (64 - s)).length) _ _ _ _
    (by simp only [List.length_drop]; omega) (by simp only [List.length_drop]; omega)]

theorem consumePure_wf (c : σ → List Nat → σ) :
    ∀ (n : Nat) (h : σ) (buf : List Nat) (s : Nat) (d : List Nat),
      s + d.length ≤ n → buf.length = 64 → s ≤ 64 →
      (consumePure c (h, buf, s) d).2.1.length = 64 ∧
        (consumePure c (h, buf, s) d).2.2 ≤ 64 := by
  intro n
  induction n with
  | zero =>
    intro h buf s d hn hbuf hs
    rw [consumePure_of_le _ _ _ _ _ (by omega)]
    refine ⟨?_, by simp; omega⟩
    simpa using (writeSlice_length buf s d (by omega)).trans hbuf
  | succ n ih =>
    intro h buf s d hn hbuf hs
    by_cases hc : 64 < s + d.length
    · rw [consumePure_step c h buf s d hc]
      have hb1 : (writeSlice buf s (d.take (64 - s))).length = 64 := by
        rw [writeSlice_length buf s _ (by simp [List.length_take]; omega)]
        exact hbuf
      exact ih _ _ _ _ (by simp [List.length_drop]; omega) hb1 (by omega)
    · rw [consumePure_of_le _ _ _ _ _ (by omega)]
      refine ⟨?_, by simp; omega⟩
      simpa using (writeSlice_length buf s d (by omega)).trans hbuf

theorem consumePure_append_of_le (c : σ → List Nat → σ) (h : σ) (buf : List Nat)
    (s : Nat) (a b : List Nat) (hle : s + a.length ≤ 64) (hbuf : buf.length = 64) :
    consumePure c (consumePure c (h, buf, s) a) b =
      consumePure c (h, buf, s) (a ++ b) := by
  rw [consumePure_of_le c h buf s a hle]
  by_cases hc : 64 < s + a.length + b.length
  · rw [consumePure_step c h (writeSlice buf s a) (s + a.length) b (by omega)]
    rw [consumePure_step c h buf s (a ++ b) (by simp [List.length_append]; omega)]
    have eidx : 64 - s - a.length = 64 - (s + a.length) := by omega
    have e1 : (a ++ b).take (64 - s) = a ++ b.take (64 - (s + a.length)) := by
      rw [List.take_append_eq_append_take,
        List.take_of_length_le (show a.length ≤ 64 - s by omega), eidx]
    have e2 : (a ++ b).drop (64 - s) = b.drop (64 - (s + a.length)) := by
      rw [List.drop_append_eq_append_drop,
        List.drop_eq_nil_of_le (show a.length ≤ 64 - s by omega), eidx]
      simp only [List.nil_append]
    have e3 : writeSlice buf s ((a ++ b).take (64 - s)) =
        writeSlice (writeSlice buf s a) (s + a.length) (b.take (64 - (s + a.length))) := by
      rw [e1, writeSlice_append buf s a _ (by omega)]
    rw [e2, e3]
  · rw [consumePure_of_le c h (writeSlice buf s a) (s + a.length) b (by omega)]
    rw [consumePure_of_le c h buf s (a ++ b) (by simp [List.length_append]; omega)]
    rw [writeSlice_append buf s a b (by omega)]
    simp [List.length_append, Nat.add_assoc]

theorem consumePure_append (c : σ → List Nat → σ) :
    ∀ (n : Nat) (h : σ) (buf : List Nat) (s : Nat) (a b : List Nat),
      s + a.length ≤ n → buf.length = 64 → s ≤ 64 →
      consumePure c (consumePure c (h, buf, s) a) b =
        consumePure c (h, buf, s) (a ++ b) := by
  intro n
  induction n with
  | zero =>
    intro h buf s a b hn hbuf hs
    exact consumePure_append_of_le c h buf s a b (by omega) hbuf
  | succ n ih =>
    intro h buf s a b hn hbuf hs
    by_cases hc : 64 < s + a.length
    · rw [consumePure_step c h buf s a hc]
      rw [consumePure_step c h buf s (a ++ b) (by simp [List.length_append]; omega)]
      have e1 : (a ++ b).take (64 - s) = a.take (64 - s) := by
        rw [List.take_append_eq_append_take, show 64 - s - a.length = 0 by omega]
        simp
      have e2 : (a ++ b).drop (64 - s) = a.drop (64 - s) ++ b := by
        rw [List.drop_append_eq_append_drop, show 64 - s - a.length = 0 by omega]
        simp
      rw [e1, e2]
      have hb1 : (writeSlice buf s (a.take (64 - s))).length = 64 := by
        rw [writeSlice_length buf s _ (by simp [List.length_take]; omega)]
        exact hbuf
      exact ih _ _ _ _ _ (by simp [List.length_drop]; omega) hb1 (by omega)
    · exact consumePure_append_of_le c h buf s a b (by omega) hbuf

theorem consume_append (c : σ → List Nat → σ) (w : Hash.Writer σ) (a b : List Nat)
    (hbuf : w.buf.length = 64) (hs : w.buf_seed ≤ 64) :
    Hash.Writer.consume c (Hash.Writer.consume c w a) b =
      Hash.Writer.consume c w (a ++ b) := by
  obtain ⟨buf, s, len, e, h⟩ := w
  simp only [Hash.Writer.consume] at *
  rw [consumePure_append c (s + a.length) h buf s a b le_rfl hbuf hs]
  simp only [List.length_append, Nat.mod_add_mod]
  rw [Nat.add_assoc]

theorem consume_wf (c : σ → List Nat → σ) (w : Hash.Writer σ) (d : List Nat)
    (hbuf : w.buf.length = 64) (hs : w.buf_seed ≤ 64) :
    (Hash.Writer.consume c w d).buf.length = 64 ∧
      (Hash.Writer.consume c w d).buf_seed ≤ 64 ∧
      (Hash.Writer.consume c w d).data_bytes_len < 2 ^ 64 := by
  obtain ⟨buf, s, len, e, h⟩ := w
  simp only [Hash.Writer.consume] at *
  have := consumePure_wf c (s + d.length) h buf s d le_rfl hbuf hs
  exact ⟨this.1, this.2, Nat.mod_lt _ (by norm_num)⟩

theorem consume_nil (c : σ → List Nat → σ) (w : Hash.Writer σ)
    (hbuf : w.buf.length = 64) (hs : w.buf_seed ≤ 64)
    (hlen : w.data_bytes_len < 2 ^ 64) :
    Hash.Writer.consume c w [] = w := by
  obtain ⟨buf, s, len, e, h⟩ := w
  simp only [Hash.Writer.consume] at *
  rw [consumePure_of_le c h buf s [] (by simpa using hs)]
  simp only [writeSlice_nil, List.length_nil, Nat.add_zero]
  rw [Nat.mod_eq_of_lt hlen]

theorem foldl_consume_join (c : σ → List Nat → σ) :
    ∀ (parts : List (List Nat)) (w : Hash.Writer σ),
      w.buf.length = 64 → w.buf_seed ≤ 64 → w.data_bytes_len < 2 ^ 64 →
      List.foldl (Hash.Writer.consume c) w parts =
        Hash.Writer.consume c w parts.flatten := by
  intro parts
  induction parts with
  | nil =>
    intro w h1 h2 h3
    simp only [List.foldl_nil, List.flatten_nil]
    rw [consume_nil c w h1 h2 h3]
  | cons p ps ih =>
    intro w h1 h2 h3
    simp only [List.foldl_cons, List.flatten_cons]
    have hwf := consume_wf c w p h1 h2
    rw [ih _ hwf.1 hwf.2.1 hwf.2.2, consume_append c w p ps.flatten h1 h2]

/-- Claim C1: chunking invariance.  Feeding the pieces of any partition of a
byte sequence `S` through separate `Writer::write`/`consume` calls on a fresh
engine and then calling `compute` yields the same digest as feeding `S` in a
single call, both for the MD5 pipeline (`Endian::Little`) and the SHA-256
pipeline (`Endian::Big`).  The partition is arbitrary, covering piece sizes
1, 64, and any mixture. -/
theorem chunking_invariance (parts : List (List Nat)) :
    Hash.Writer.compute Md5.compressC Md5.get_digest
        (List.foldl (Hash.Writer.consume Md5.compressC) Md5.writer parts) =
      Md5.hash parts.flatten ∧
    Hash.Writer.compute Sha256.compressC Sha256.get_digest
        (List.foldl (Hash.Writer.consume Sha256.compressC) Sha256.writer parts) =
      Sha256.hash parts.flatten := by
  constructor
  · rw [foldl_consume_join Md5.compressC parts Md5.writer
      (by simp [Md5.writer, Hash.Writer.new])
      (by simp [Md5.writer, Hash.Writer.new])
      (by simp [Md5.writer, Hash.Writer.new])]
    rfl
  · rw [foldl_consume_join Sha256.compressC parts Sha256.writer
      (by simp [Sha256.writer, Hash.Writer.new])
      (by simp [Sha256.writer, Hash.Writer.new])
      (by simp [Sha256.writer, Hash.Writer.new])]
    rfl

/-- Claim C4 counterexample: a single write of exactly 64 bytes to a fresh
engine ends with `buf_seed = 64`, refuting the claimed strict invariant
`buf_seed < 64`; moreover the full block is not compressed during that call
(the compress-call trace stays empty), refuting "that block is passed to
compress during the same write call". -/
theorem accumulator_seed64_counterexample :
    ¬ ((Hash.Writer.consume (fun (tr : List (List Nat)) blk => tr ++ [blk])
        (Hash.Writer.new [] Endian.Little) (List.replicate 64 1)).buf_seed < 64) ∧
    (Hash.Writer.consume (fun (tr : List (List Nat)) blk => tr ++ [blk])
        (Hash.Writer.new [] Endian.Little) (List.replicate 64 1)).hasher = [] := by
  decide

/-- Claim C4 (amended): after construction and after every write the
fill-offset `buf_seed` stays in `[0, 64]` — it may equal 64 when a write
fills the accumulator exactly — and the buffer keeps length 64.  A full
accumulator is not compressed eagerly: whenever the buffered offset plus the
incoming length is at most 64 (which includes every write that merely fills
the buffer to exactly 64), the compressor state is untouched and the offset
grows by the incoming length; the buffered block is compressed only by a
later write that strictly overfills it, or at finalization. -/
theorem accumulator_invariant (σ : Type) (c : σ → List Nat → σ)
    (w : Hash.Writer σ) (d : List Nat)
    (hbuf : w.buf.length = 64) (hs : w.buf_seed ≤ 64) :
    (Hash.Writer.consume c w d).buf_seed ≤ 64 ∧
      (Hash.Writer.consume c w d).buf.length = 64 ∧
      (w.buf_seed + d.length ≤ 64 →
        (Hash.Writer.consume c w d).hasher = w.hasher ∧
        (Hash.Writer.consume c w d).buf_seed = w.buf_seed + d.length) := by
  have hwf := consume_wf c w d hbuf hs
  refine ⟨hwf.2.1, hwf.1, fun hle => ?_⟩
  obtain ⟨buf, s, len, e, h⟩ := w
  simp only [Hash.Writer.consume] at *
  rw [consumePure_of_le c h buf s d hle]
  exact ⟨rfl, rfl⟩

/-- Witness for the amended claim C4, at a fresh little-endian engine holding
a trace compressor and a 3-byte write. -/
theorem accumulator_invariant_witness :
    ((Hash.Writer.new ([] : List (List Nat)) Endian.Little).buf.length = 64 ∧
      (Hash.Writer.new ([] : List (List Nat)) Endian.Little).buf_seed ≤ 64) ∧
    ((Hash.Writer.consume (fun tr blk => tr ++ [blk])
        (Hash.Writer.new ([] : List (List Nat)) Endian.Little) [1, 2, 3]).buf_seed ≤ 64 ∧
      (Hash.Writer.consume (fun tr blk => tr ++ [blk])
        (Hash.Writer.new ([] : List (List Nat)) Endian.Little) [1, 2, 3]).buf.length = 64 ∧
      ((Hash.Writer.new ([] : List (List Nat)) Endian.Little).buf_seed + [1, 2, 3].length ≤ 64 →
        (Hash.Writer.consume (fun tr blk => tr ++ [blk])
          (Hash.Writer.new ([] : List (List Nat)) Endian.Little) [1, 2, 3]).hasher =
            (Hash.Writer.new ([] : List (List Nat)) Endian.Little).hasher ∧
        (Hash.Writer.consume (fun tr blk => tr ++ [blk])
          (Hash.Writer.new ([] : List (List Nat)) Endian.Little) [1, 2, 3]).buf_seed =
            (Hash.Writer.new ([] : List (List Nat)) Endian.Little).buf_seed + [1, 2, 3].length)) :=
  ⟨⟨by decide, by decide⟩,
    accumulator_invariant (List (List Nat)) (fun tr blk => tr ++ [blk])
      (Hash.Writer.new [] Endian.Little) [1, 2, 3] (by decide) (by decide)⟩

set_option maxHeartbeats 4000000 in
/-- Claim C2: known-answer vectors.  Hashing the empty input yields the MD5
digest `d41d8cd98f00b204e9800998ecf8427e` and the SHA-256 digest
`e3b0c44298fc1c149afbf4c8996fb92427ae41e4649b934ca495991b7852b855`; the 5
ASCII bytes of "HELLO" yield MD5 `eb61eead90e3b899c6bcbe27ac581660`; the 3
bytes of "abc" yield SHA-256
`ba7816bf8f01cfea414140de5dae2223b00361a396177a9cb410ff61f20015ad`, all
rendered as lowercase hex by the `Display` implementation. -/
theorem known_answer_vectors :
    (Md5.hash []).map renderHex = some "d41d8cd98f00b204e9800998ecf8427e".toList ∧
    (Md5.hash [0x48, 0x45, 0x4c, 0x4c, 0x4f]).map renderHex =
      some "eb61eead90e3b899c6bcbe27ac581660".toList ∧
    (Sha256.hash []).map renderHex =
      some "e3b0c44298fc1c149afbf4c8996fb92427ae41e4649b934ca495991b7852b855".toList ∧
    (Sha256.hash [0x61, 0x62, 0x63]).map renderHex =
      some "ba7816bf8f01cfea414140de5dae2223b00361a396177a9cb410ff61f20015ad".toList := by
  decide

/-! ## Lemmas: finalization block layout -/

theorem set_append_off (l₁ l₂ : List Nat) (n a : Nat) :
    (l₁ ++ l₂).set (l₁.length + n) a = l₁ ++ l₂.set n a := by
  induction l₁ with
  | nil => simp
  | cons x t ih =>
    simp only [List.cons_append, List.length_cons]
    rw [show t.length + 1 + n = (t.length + n) + 1 by omega]
    simp only [List.set_cons_succ, ih]

theorem setChain8_asc (D : List Nat) (hD : D.length = 8)
    (b0 b1 b2 b3 b4 b5 b6 b7 : Nat) :
    (((((((D.set 0 b0).set 1 b1).set 2 b2).set 3 b3).set 4 b4).set 5
        b5).set 6 b6).set 7 b7 = [b0, b1, b2, b3, b4, b5, b6, b7] := by
  apply List.ext_getElem
  · simp [hD]
  · intro i h1 h2
    simp only [List.length_set, hD] at h1
    interval_cases i <;> simp [List.getElem_set]

theorem setChain8_desc (D : List Nat) (hD : D.length = 8)
    (b0 b1 b2 b3 b4 b5 b6 b7 : Nat) :
    (((((((D.set 7 b7).set 6 b6).set 5 b5).set 4 b4).set 3 b3).set 2
        b2).set 1 b1).set 0 b0 = [b0, b1, b2, b3, b4, b5, b6, b7] := by
  apply List.ext_getElem
  · simp [hD]
  · intro i h1 h2
    simp only [List.length_set, hD] at h1
    interval_cases i <;> simp [List.getElem_set]

theorem fillDataLen_spec (e : Endian) (buf : List Nat) (bits : Nat)
    (hbuf : buf.length = 64) :
    fillDataLen e buf bits = buf.take 56 ++ lenBytes e bits := by
  obtain ⟨T, D, hT, hD, rfl⟩ :
      ∃ T D, T.length = 56 ∧ D.length = 8 ∧ buf = T ++ D :=
    ⟨buf.take 56, buf.drop 56, by simp [hbuf], by simp [hbuf],
      (List.take_append_drop 56 buf).symm⟩
  have htake : (T ++ D).take 56 = T := List.take_left' hT
  cases e with
  | Big =>
    simp only [fillDataLen, lenBytes, htake]
    rw [show (63 : Nat) = T.length + 7 by omega, set_append_off,
        show (62 : Nat) = T.length + 6 by omega, set_append_off,
        show (61 : Nat) = T.length + 5 by omega, set_append_off,
        show (60 : Nat) = T.length + 4 by omega, set_append_off,
        show (59 : Nat) = T.length + 3 by omega, set_append_off,
        show (58 : Nat) = T.length + 2 by omega, set_append_off,
        show (57 : Nat) = T.length + 1 by omega, set_append_off,
        show (56 : Nat) = T.length + 0 by omega, set_append_off]
    rw [setChain8_desc D hD]
  | Little =>
    simp only [fillDataLen, lenBytes, htake]
    rw [show (56 : Nat) = T.length + 0 by omega, set_append_off,
        show (57 : Nat) = T.length + 1 by omega, set_append_off,
        show (58 : Nat) = T.length + 2 by omega, set_append_off,
        show (59 : Nat) = T.length + 3 by omega, set_append_off,
        show (60 : Nat) = T.length + 4 by omega, set_append_off,
        show (61 : Nat) = T.length + 5 by omega, set_append_off,
        show (62 : Nat) = T.length + 6 by omega, set_append_off,
        show (63 : Nat) = T.length + 7 by omega, set_append_off]
    rw [setChain8_asc D hD]

theorem PADDING_take_succ (k : Nat) (hk : k ≤ 63) :
    PADDING.take (k + 1) = 0x80 :: List.replicate k 0 := by
  simp only [PADDING, List.take_succ_cons, List.take_replicate]
  rw [show min k 63 = k by omega]

theorem PADDING_drop_8 : PADDING.drop 8 = List.replicate 56 0 := by decide

theorem finalBlocks_spec (σ : Type) (w : Hash.Writer σ)
    (hbuf : w.buf.length = 64) (hs : w.buf_seed ≤ 64) :
    Hash.Writer.finalBlocks w =
      if w.buf_seed ≤ 55 then
        [w.buf.take w.buf_seed ++ 0x80 :: List.replicate (55 - w.buf_seed) 0
          ++ lenBytes w.endian ((w.data_bytes_len * 8) % 2 ^ 64)]
      else if w.buf_seed ≤ 63 then
        [w.buf.take w.buf_seed ++ 0x80 :: List.replicate (63 - w.buf_seed) 0,
          List.replicate 56 0 ++ lenBytes w.endian ((w.data_bytes_len * 8) % 2 ^ 64)]
      else
        [w.buf, 0x80 :: List.replicate 55 0
          ++ lenBytes w.endian ((w.data_bytes_len * 8) % 2 ^ 64)] := by
  obtain ⟨buf, s, len, e, h⟩ := w
  simp only at hbuf hs ⊢
  simp only [Hash.Writer.finalBlocks, Hash.Writer.compute]
  by_cases h1 : s ≤ 55
  · rw [if_pos (show s ≤ 64 - (1 + 8) by omega), if_pos h1]
    have hpad : PADDING.take (64 - 8 - s) = 0x80 :: List.replicate (55 - s) 0 := by
      rw [show 64 - 8 - s = (55 - s) + 1 by omega]
      exact PADDING_take_succ _ (by omega)
    rw [hpad]
    have hws : writeSlice buf s (0x80 :: List.replicate (55 - s) 0) =
        (buf.take s ++ 0x80 :: List.replicate (55 - s) 0) ++ buf.drop 56 := by
      simp only [writeSlice, List.length_cons, List.length_replicate]
      rw [show s + (55 - s + 1) = 56 by omega]
    rw [hws]
    have hlen1 : ((buf.take s ++ 0x80 :: List.replicate (55 - s) 0) ++ buf.drop 56).length
        = 64 := by
      simp [List.length_append, List.length_take, List.length_replicate,
        List.length_drop, hbuf]
      omega
    rw [fillDataLen_spec e _ _ hlen1]
    rw [List.take_left' (show (buf.take s ++ 0x80 :: List.replicate (55 - s) 0).length = 56
      by simp [List.length_append, List.length_take, List.length_replicate, hbuf]; omega)]
    simp [List.append_assoc]
  · rw [if_neg (show ¬ s ≤ 64 - (1 + 8) by omega), if_neg h1]
    by_cases h2 : s ≤ 63
    · rw [if_pos h2]
      have hpad : PADDING.take (64 - s) = 0x80 :: List.replicate (63 - s) 0 := by
        rw [show 64 - s = (63 - s) + 1 by omega]
        exact PADDING_take_succ _ (by omega)
      rw [hpad]
      have hws : writeSlice buf s (0x80 :: List.replicate (63 - s) 0) =
          buf.take s ++ 0x80 :: List.replicate (63 - s) 0 := by
        simp only [writeSlice, List.length_cons, List.length_replicate]
        rw [show s + (63 - s + 1) = 64 by omega]
        rw [List.drop_eq_nil_of_le (by omega)]
        simp
      rw [hws]
      rw [if_neg (show ¬ 64 - s = 0 by omega)]
      have hlen1 : (buf.take s ++ 0x80 :: List.replicate (63 - s) 0).length = 64 := by
        simp [List.length_append, List.length_take, List.length_replicate, hbuf]
        omega
      have hws2 : writeSlice (buf.take s ++ 0x80 :: List.replicate (63 - s) 0) 0
          (PADDING.drop 8) =
          List.replicate 56 0 ++ (buf.take s ++ 0x80 :: List.replicate (63 - s) 0).drop 56 := by
        simp only [writeSlice, PADDING_drop_8, List.take_zero, List.length_replicate,
          List.nil_append, Nat.zero_add]
      rw [hws2]
      have hlen2 : (List.replicate 56 0 ++
          (buf.take s ++ 0x80 :: List.replicate (63 - s) 0).drop 56).length = 64 := by
        simp [List.length_append, List.length_replicate, List.length_drop, hlen1]
      rw [fillDataLen_spec e _ _ hlen2]
      rw [List.take_left' (show (List.replicate 56 (0:Nat)).length = 56 by simp)]
      simp
    · rw [if_neg h2]
      have hs64 : s = 64 := by omega
      subst hs64
      simp only [Nat.sub_self, List.take_zero]
      have hws : writeSlice buf 64 [] = buf := by
        simp only [writeSlice, List.length_nil, Nat.add_zero]
        rw [List.take_of_length_le (by omega), List.drop_eq_nil_of_le (by omega)]
        simp
      rw [hws]
      simp only [if_true]
      have hws2 : writeSlice buf 0 (PADDING.drop 8) =
          List.replicate 56 0 ++ buf.drop 56 := by
        simp only [writeSlice, PADDING_drop_8, List.take_zero, List.length_replicate,
          List.nil_append, Nat.zero_add]
      rw [hws2]
      have hset : (List.replicate 56 (0:Nat) ++ buf.drop 56).set 0 0x80 =
          (0x80 :: List.replicate 55 0) ++ buf.drop 56 := by
        rw [show (56:Nat) = 55 + 1 by omega, List.replicate_succ]
        simp
      rw [hset]
      have hlen3 : ((0x80 :: List.replicate 55 0) ++ buf.drop 56).length = 64 := by
        simp [List.length_append, List.length_replicate, List.length_drop, hbuf]
      rw [fillDataLen_spec e _ _ hlen3]
      rw [List.take_left' (show (0x80 :: List.replicate 55 (0:Nat)).length = 56 by simp)]
      simp

/-- Claim C3 counterexample: after a single 64-byte write the engine reaches
`compute` with buffered offset 64 (which is `> 55`), and there the two final
blocks are NOT "buffered bytes padded with 0x80 ..." followed by "all zero
bytes except the last 8": the first block is the bare buffered block with no
`0x80` terminator at all, and the second block carries the `0x80` at index 0,
outside the length field. -/
theorem finalization_seed64_counterexample :
    (Hash.Writer.consume (fun (tr : List (List Nat)) blk => tr ++ [blk])
        (Hash.Writer.new [] Endian.Little) (List.replicate 64 1)).finalBlocks =
      [List.replicate 64 1,
        0x80 :: List.replicate 55 0 ++ [0, 2, 0, 0, 0, 0, 0, 0]] ∧
    ¬ (0x80 ∈ (Hash.Writer.consume (fun (tr : List (List Nat)) blk => tr ++ [blk])
        (Hash.Writer.new [] Endian.Little) (List.replicate 64 1)).finalBlocks[0]!) ∧
    ((Hash.Writer.consume (fun (tr : List (List Nat)) blk => tr ++ [blk])
        (Hash.Writer.new [] Endian.Little)
        (List.replicate 64 1)).finalBlocks[1]!)[0]! = 0x80 := by
  decide

/-- Claim C3 (amended): finalization layout of `compute`/`consume_final` for
a well-formed engine state with buffered offset `o = buf_seed ≤ 64`.  If
`o ≤ 55`: one further block, the `o` buffered bytes, `0x80`, zeros up to byte
56, then the 8-byte bit-length field in the configured endianness.  If
`55 < o ≤ 63`: two further blocks, the buffered bytes padded with `0x80` and
zeros to 64 (at `o = 63` the block ends with the bare `0x80` and no second
terminator appears), then a block of 56 zeros plus the length field.  If
`o = 64` (reachable, since a write may fill the buffer exactly): the first
block is the buffered block unchanged — no `0x80` — and the second block is
`0x80`, 55 zeros, then the length field. -/
theorem finalization_layout (σ : Type) (w : Hash.Writer σ)
    (hbuf : w.buf.length = 64) (hs : w.buf_seed ≤ 64) :
    (w.buf_seed ≤ 55 →
      Hash.Writer.finalBlocks w =
        [w.buf.take w.buf_seed ++ 0x80 :: List.replicate (55 - w.buf_seed) 0
          ++ lenBytes w.endian ((w.data_bytes_len * 8) % 2 ^ 64)]) ∧
    (55 < w.buf_seed → w.buf_seed ≤ 63 →
      Hash.Writer.finalBlocks w =
        [w.buf.take w.buf_seed ++ 0x80 :: List.replicate (63 - w.buf_seed) 0,
          List.replicate 56 0 ++ lenBytes w.endian ((w.data_bytes_len * 8) % 2 ^ 64)]) ∧
    (w.buf_seed = 64 →
      Hash.Writer.finalBlocks w =
        [w.buf, 0x80 :: List.replicate 55 0
          ++ lenBytes w.endian ((w.data_bytes_len * 8) % 2 ^ 64)]) := by
  have hspec := finalBlocks_spec σ w hbuf hs
  refine ⟨fun h1 => ?_, fun h1 h2 => ?_, fun h1 => ?_⟩
  · rw [hspec, if_pos h1]
  · rw [hspec, if_neg (by omega), if_pos h2]
  · rw [hspec, if_neg (by omega), if_neg (by omega)]

/-- Witness for the amended claim C3 at a concrete state: 5 buffered bytes,
13 bytes counted, big-endian. -/
theorem finalization_layout_witness :
    ((⟨[9, 9, 9, 9, 9] ++ List.replicate 59 0, 5, 13, Endian.Big, ()⟩ :
        Hash.Writer Unit).buf.length = 64 ∧
      (⟨[9, 9, 9, 9, 9] ++ List.replicate 59 0, 5, 13, Endian.Big, ()⟩ :
        Hash.Writer Unit).buf_seed ≤ 64) ∧
    ((⟨[9, 9, 9, 9, 9] ++ List.replicate 59 0, 5, 13, Endian.Big, ()⟩ :
        Hash.Writer Unit).buf_seed ≤ 55 →
      Hash.Writer.finalBlocks
        (⟨[9, 9, 9, 9, 9] ++ List.replicate 59 0, 5, 13, Endian.Big, ()⟩ :
          Hash.Writer Unit) =
        [(⟨[9, 9, 9, 9, 9] ++ List.replicate 59 0, 5, 13, Endian.Big, ()⟩ :
            Hash.Writer Unit).buf.take 5 ++ 0x80 :: List.replicate 50 0
          ++ lenBytes Endian.Big ((13 * 8) % 2 ^ 64)]) :=
  ⟨⟨by decide, by decide⟩,
    (finalization_layout Unit
      ⟨[9, 9, 9, 9, 9] ++ List.replicate 59 0, 5, 13, Endian.Big, ()⟩
      (by decide) (by decide)).1⟩

theorem finalBlocks_getLast_drop (σ : Type) (w : Hash.Writer σ)
    (hbuf : w.buf.length = 64) (hs : w.buf_seed ≤ 64) :
    w.finalBlocks.getLast!.drop 56 =
      lenBytes w.endian ((w.data_bytes_len * 8) % 2 ^ 64) := by
  rw [finalBlocks_spec σ w hbuf hs]
  by_cases k1 : w.buf_seed ≤ 55
  · rw [if_pos k1]
    have hgrp : w.buf.take w.buf_seed ++ 0x80 :: List.replicate (55 - w.buf_seed) 0
        ++ lenBytes w.endian ((w.data_bytes_len * 8) % 2 ^ 64) =
        (w.buf.take w.buf_seed ++ 0x80 :: List.replicate (55 - w.buf_seed) 0)
          ++ lenBytes w.endian ((w.data_bytes_len * 8) % 2 ^ 64) := by
      simp
    simp only [List.getLast!, List.getLast?, hgrp]
    exact List.drop_left' (by
      simp [List.length_append, List.length_take, List.length_replicate, hbuf]
      omega)
  · rw [if_neg k1]
    by_cases k2 : w.buf_seed ≤ 63
    · rw [if_pos k2]
      simp only [List.getLast!, List.getLast?]
      exact List.drop_left' (by simp)
    · rw [if_neg k2]
      simp only [List.getLast!, List.getLast?]
      have hgrp : (0x80 : Nat) :: List.replicate 55 0
          ++ lenBytes w.endian ((w.data_bytes_len * 8) % 2 ^ 64) =
          ((0x80 : Nat) :: List.replicate 55 0)
            ++ lenBytes w.endian ((w.data_bytes_len * 8) % 2 ^ 64) := by
        simp
      rw [hgrp]
      exact List.drop_left' (by simp)

/-- Claim C9: the engine's byte counter.  `consume` always sets the counter
to the old counter plus the full length of its argument, modulo `2^64`
(wrapping, and independent of any compression in the call); over any sequence
of writes from a fresh engine the counter is the total stream length modulo
`2^64`; and the 8-byte field at offsets 56..63 of the last finalization block
encodes `counter * 8` with wrapping 64-bit multiplication — hence the total
input length in bits — regardless of how the writes were chunked. -/
theorem byte_counter :
    (∀ (σ : Type) (c : σ → List Nat → σ) (w : Hash.Writer σ) (d : List Nat),
        (Hash.Writer.consume c w d).data_bytes_len =
          (w.data_bytes_len + d.length) % 2 ^ 64) ∧
    (∀ (σ : Type) (c : σ → List Nat → σ) (h0 : σ) (e : Endian)
        (parts : List (List Nat)),
        (List.foldl (Hash.Writer.consume c) (Hash.Writer.new h0 e)
            parts).data_bytes_len = parts.flatten.length % 2 ^ 64) ∧
    (∀ (σ : Type) (c : σ → List Nat → σ) (h0 : σ) (e : Endian)
        (parts : List (List Nat)),
        (List.foldl (Hash.Writer.consume c) (Hash.Writer.new h0 e)
            parts).finalBlocks.getLast!.drop 56 =
          lenBytes e ((parts.flatten.length * 8) % 2 ^ 64)) := by
  have key : ∀ (σ : Type) (c : σ → List Nat → σ) (h0 : σ) (e : Endian)
      (parts : List (List Nat)),
      List.foldl (Hash.Writer.consume c) (Hash.Writer.new h0 e) parts =
        Hash.Writer.consume c (Hash.Writer.new h0 e) parts.flatten :=
    fun σ c h0 e parts =>
      foldl_consume_join c parts _ (by simp [Hash.Writer.new])
        (by simp [Hash.Writer.new]) (by simp [Hash.Writer.new])
  have hcnt : ∀ (σ : Type) (c : σ → List Nat → σ) (h0 : σ) (e : Endian)
      (parts : List (List Nat)),
      (List.foldl (Hash.Writer.consume c) (Hash.Writer.new h0 e)
          parts).data_bytes_len = parts.flatten.length % 2 ^ 64 := by
    intro σ c h0 e parts
    rw [key]
    simp [Hash.Writer.consume, Hash.Writer.new]
  refine ⟨fun σ c w d => rfl, hcnt, fun σ c h0 e parts => ?_⟩
  rw [key σ c h0 e parts]
  have hwf := consume_wf c (Hash.Writer.new h0 e) parts.flatten
    (by simp [Hash.Writer.new]) (by simp [Hash.Writer.new])
  rw [finalBlocks_getLast_drop σ _ hwf.1 hwf.2.1]
  have hend : (Hash.Writer.consume c (Hash.Writer.new h0 e)
      parts.flatten).endian = e := rfl
  have hlen : (Hash.Writer.consume c (Hash.Writer.new h0 e)
      parts.flatten).data_bytes_len = parts.flatten.length % 2 ^ 64 := by
    simp [Hash.Writer.consume, Hash.Writer.new]
  rw [hend, hlen, Nat.mod_mul_mod]

/-- Claim C7: endianness is a single construction-time parameter consulted at
finalization and serialization.  The MD5 pipeline is constructed with
`Endian::Little` and the SHA-256 pipeline with `Endian::Big`;
`fill_data_len` writes the 8-byte bit length into buffer bytes 56..63 least
significant byte first under `Little` and most significant first under
`Big`; the MD5 digest serializes its state words A,B,C,D little-endian, and
the SHA-256 digest serializes its eight state words big-endian, left to
right. -/
theorem endianness_configuration :
    Md5.writer.endian = Endian.Little ∧
    Sha256.writer.endian = Endian.Big ∧
    (∀ (buf : List Nat) (bits : Nat), buf.length = 64 →
      fillDataLen Endian.Little buf bits =
        buf.take 56 ++ [bits &&& 0xff, (bits >>> 8) &&& 0xff,
          (bits >>> 16) &&& 0xff, (bits >>> 24) &&& 0xff, (bits >>> 32) &&& 0xff,
          (bits >>> 40) &&& 0xff, (bits >>> 48) &&& 0xff, (bits >>> 56) &&& 0xff] ∧
      fillDataLen Endian.Big buf bits =
        buf.take 56 ++ [(bits >>> 56) &&& 0xff, (bits >>> 48) &&& 0xff,
          (bits >>> 40) &&& 0xff, (bits >>> 32) &&& 0xff, (bits >>> 24) &&& 0xff,
          (bits >>> 16) &&& 0xff, (bits >>> 8) &&& 0xff, bits &&& 0xff]) ∧
    (∀ a b c d : Nat, Md5.Digest.from_state a b c d =
        as_u8_le a ++ as_u8_le b ++ as_u8_le c ++ as_u8_le d) ∧
    (∀ s0 s1 s2 s3 s4 s5 s6 s7 : Nat,
        Sha256.get_digest (some [s0, s1, s2, s3, s4, s5, s6, s7]) =
          some (as_u8_be s0 ++ as_u8_be s1 ++ as_u8_be s2 ++ as_u8_be s3 ++
            as_u8_be s4 ++ as_u8_be s5 ++ as_u8_be s6 ++ as_u8_be s7)) := by
  refine ⟨rfl, rfl, fun buf bits hbuf => ⟨?_, ?_⟩, fun a b c d => rfl,
    fun s0 s1 s2 s3 s4 s5 s6 s7 => ?_⟩
  · rw [fillDataLen_spec _ _ _ hbuf]
    rfl
  · rw [fillDataLen_spec _ _ _ hbuf]
    rfl
  · have e0 : writeSlice (List.replicate 32 0) (0*4)
        (as_u8_be ([s0,s1,s2,s3,s4,s5,s6,s7][0]!)) =
        as_u8_be s0 ++ List.replicate 28 0 := by rfl
    have e1 : writeSlice (as_u8_be s0 ++ List.replicate 28 0) (1*4)
        (as_u8_be ([s0,s1,s2,s3,s4,s5,s6,s7][1]!)) =
        as_u8_be s0 ++ as_u8_be s1 ++ List.replicate 24 0 := by rfl
    have e2 : writeSlice (as_u8_be s0 ++ as_u8_be s1 ++ List.replicate 24 0) (2*4)
        (as_u8_be ([s0,s1,s2,s3,s4,s5,s6,s7][2]!)) =
        as_u8_be s0 ++ as_u8_be s1 ++ as_u8_be s2 ++ List.replicate 20 0 := by rfl
    have e3 : writeSlice (as_u8_be s0 ++ as_u8_be s1 ++ as_u8_be s2 ++
          List.replicate 20 0) (3*4)
        (as_u8_be ([s0,s1,s2,s3,s4,s5,s6,s7][3]!)) =
        as_u8_be s0 ++ as_u8_be s1 ++ as_u8_be s2 ++ as_u8_be s3 ++
          List.replicate 16 0 := by rfl
    have e4 : writeSlice (as_u8_be s0 ++ as_u8_be s1 ++ as_u8_be s2 ++
          as_u8_be s3 ++ List.replicate 16 0) (4*4)
        (as_u8_be ([s0,s1,s2,s3,s4,s5,s6,s7][4]!)) =
        as_u8_be s0 ++ as_u8_be s1 ++ as_u8_be s2 ++ as_u8_be s3 ++
          as_u8_be s4 ++ List.replicate 12 0 := by rfl
    have e5 : writeSlice (as_u8_be s0 ++ as_u8_be s1 ++ as_u8_be s2 ++
          as_u8_be s3 ++ as_u8_be s4 ++ List.replicate 12 0) (5*4)
        (as_u8_be ([s0,s1,s2,s3,s4,s5,s6,s7][5]!)) =
        as_u8_be s0 ++ as_u8_be s1 ++ as_u8_be s2 ++ as_u8_be s3 ++
          as_u8_be s4 ++ as_u8_be s5 ++ List.replicate 8 0 := by rfl
    have e6 : writeSlice (as_u8_be s0 ++ as_u8_be s1 ++ as_u8_be s2 ++
          as_u8_be s3 ++ as_u8_be s4 ++ as_u8_be s5 ++ List.replicate 8 0) (6*4)
        (as_u8_be ([s0,s1,s2,s3,s4,s5,s6,s7][6]!)) =
        as_u8_be s0 ++ as_u8_be s1 ++ as_u8_be s2 ++ as_u8_be s3 ++
          as_u8_be s4 ++ as_u8_be s5 ++ as_u8_be s6 ++ List.replicate 4 0 := by rfl
    have e7 : writeSlice (as_u8_be s0 ++ as_u8_be s1 ++ as_u8_be s2 ++
          as_u8_be s3 ++ as_u8_be s4 ++ as_u8_be s5 ++ as_u8_be s6 ++
          List.replicate 4 0) (7*4)
        (as_u8_be ([s0,s1,s2,s3,s4,s5,s6,s7][7]!)) =
        as_u8_be s0 ++ as_u8_be s1 ++ as_u8_be s2 ++ as_u8_be s3 ++
          as_u8_be s4 ++ as_u8_be s5 ++ as_u8_be s6 ++ as_u8_be s7 := by rfl
    rw [show Sha256.get_digest (some [s0,s1,s2,s3,s4,s5,s6,s7]) =
        some ((List.range 8).foldl
          (fun digest i =>
            writeSlice digest (i * 4) (as_u8_be ([s0,s1,s2,s3,s4,s5,s6,s7][i]!)))
          (List.replicate 32 0)) from rfl]
    rw [show List.range 8 = [0,1,2,3,4,5,6,7] from rfl]
    simp only [List.foldl_cons, List.foldl_nil]
    rw [e0, e1, e2, e3, e4, e5, e6, e7]

/-- Witness for claim C7 at the all-zero buffer and bit length 513. -/
theorem endianness_configuration_witness :
    (List.replicate 64 (0:Nat)).length = 64 ∧
    fillDataLen Endian.Little (List.replicate 64 0) 513 =
      (List.replicate 64 (0:Nat)).take 56 ++ [513 &&& 0xff, (513 >>> 8) &&& 0xff,
        (513 >>> 16) &&& 0xff, (513 >>> 24) &&& 0xff, (513 >>> 32) &&& 0xff,
        (513 >>> 40) &&& 0xff, (513 >>> 48) &&& 0xff, (513 >>> 56) &&& 0xff] ∧
    fillDataLen Endian.Big (List.replicate 64 0) 513 =
      (List.replicate 64 (0:Nat)).take 56 ++ [(513 >>> 56) &&& 0xff,
        (513 >>> 48) &&& 0xff, (513 >>> 40) &&& 0xff, (513 >>> 32) &&& 0xff,
        (513 >>> 24) &&& 0xff, (513 >>> 16) &&& 0xff, (513 >>> 8) &&& 0xff,
        513 &&& 0xff] :=
  ⟨by decide,
    ((endianness_configuration.2.2.1 (List.replicate 64 0) 513 (by decide)).1),
    ((endianness_configuration.2.2.1 (List.replicate 64 0) 513 (by decide)).2)⟩

/-! ## Lemmas: rotation safety (claim C10) -/

theorem left_rotate_isSome (x s : Nat) (h1 : 0 < s) (h2 : s < 32) :
    (left_rotate x s).isSome := by
  simp [left_rotate, h1, h2]

theorem right_rotate_isSome (x s : Nat) (h1 : 0 < s) (h2 : s < 32) :
    (right_rotate x s).isSome := by
  simp [right_rotate, h1, h2]

theorem md5_S_range : ∀ i : Nat, i < 64 → 4 ≤ Md5.S[i]! ∧ Md5.S[i]! ≤ 23 := by
  decide

theorem foldlM_option_isSome {α β : Type} (f : β → α → Option β) (l : List α)
    (hf : ∀ b a, a ∈ l → (f b a).isSome) :
    ∀ init : β, (l.foldlM f init).isSome := by
  induction l with
  | nil => intro init; simp [List.foldlM]
  | cons x xs ih =>
    intro init
    obtain ⟨b, hb⟩ := Option.isSome_iff_exists.mp
      (hf init x (List.mem_cons_self x xs))
    rw [List.foldlM_cons, hb]
    exact ih (fun b a ha => hf b a (List.mem_cons_of_mem _ ha)) b

theorem md5_round_isSome (words : List Nat) (t : Md5.State) (i : Nat)
    (hi : i < 64) : (Md5.round words t i).isSome := by
  have hs := md5_S_range i hi
  simp only [Md5.round]
  obtain ⟨r, hr⟩ := Option.isSome_iff_exists.mp
    (left_rotate_isSome
      ((((if i < 16 then (t.2.1 &&& t.2.2.1) ||| (bnot32 t.2.1 &&& t.2.2.2)
        else if i < 32 then (t.2.2.2 &&& t.2.1) ||| (bnot32 t.2.2.2 &&& t.2.2.1)
        else if i < 48 then t.2.1 ^^^ t.2.2.1 ^^^ t.2.2.2
        else t.2.2.1 ^^^ (t.2.1 ||| bnot32 t.2.2.2)) +
          ((t.1 + Md5.K[i]!) % 2 ^ 32 +
            words[if i < 16 then i
              else if i < 32 then (5 * i + 1) % 16
              else if i < 48 then (3 * i + 5) % 16
              else (7 * i) % 16]!) % 2 ^ 32) % 2 ^ 32))
      Md5.S[i]! (by omega) (by omega))
  rw [hr]
  rfl

theorem md5_eat_chunk_isSome (st : Md5.State) (blk : List Nat) :
    (Md5.eat_chunk st blk).isSome := by
  simp only [Md5.eat_chunk]
  obtain ⟨t, ht⟩ := Option.isSome_iff_exists.mp
    (foldlM_option_isSome (Md5.round (Md5.split_words blk)) (List.range 64)
      (fun t i hi => md5_round_isSome _ t i (List.mem_range.mp hi)) st)
  rw [ht]
  rfl

theorem sha_scheduleStep_isSome (ws : List Nat) :
    (Sha256.scheduleStep ws).isSome := by
  simp only [Sha256.scheduleStep]
  obtain ⟨r1, h1⟩ := Option.isSome_iff_exists.mp
    (right_rotate_isSome ws[ws.length - 15]! 7 (by omega) (by omega))
  obtain ⟨r2, h2⟩ := Option.isSome_iff_exists.mp
    (right_rotate_isSome ws[ws.length - 15]! 18 (by omega) (by omega))
  obtain ⟨r3, h3⟩ := Option.isSome_iff_exists.mp
    (right_rotate_isSome ws[ws.length - 2]! 17 (by omega) (by omega))
  obtain ⟨r4, h4⟩ := Option.isSome_iff_exists.mp
    (right_rotate_isSome ws[ws.length - 2]! 19 (by omega) (by omega))
  rw [h1, h2, h3, h4]
  rfl

theorem sha_scheduleRec_isSome : ∀ (k : Nat) (ws : List Nat),
    (Sha256.scheduleRec ws k).isSome := by
  intro k
  induction k with
  | zero => intro ws; rfl
  | succ k ih =>
    intro ws
    obtain ⟨w, hw⟩ := Option.isSome_iff_exists.mp (sha_scheduleStep_isSome ws)
    simp only [Sha256.scheduleRec, hw]
    exact ih (ws ++ [w])

theorem sha_round_isSome (words : List Nat) (t : Sha256.Vars) (i : Nat) :
    (Sha256.round words t i).isSome := by
  simp only [Sha256.round]
  obtain ⟨r1, h1⟩ := Option.isSome_iff_exists.mp
    (right_rotate_isSome t.2.2.2.2.1 6 (by omega) (by omega))
  obtain ⟨r2, h2⟩ := Option.isSome_iff_exists.mp
    (right_rotate_isSome t.2.2.2.2.1 11 (by omega) (by omega))
  obtain ⟨r3, h3⟩ := Option.isSome_iff_exists.mp
    (right_rotate_isSome t.2.2.2.2.1 25 (by omega) (by omega))
  obtain ⟨r4, h4⟩ := Option.isSome_iff_exists.mp
    (right_rotate_isSome t.1 2 (by omega) (by omega))
  obtain ⟨r5, h5⟩ := Option.isSome_iff_exists.mp
    (right_rotate_isSome t.1 13 (by omega) (by omega))
  obtain ⟨r6, h6⟩ := Option.isSome_iff_exists.mp
    (right_rotate_isSome t.1 22 (by omega) (by omega))
  rw [h1, h2, h3, h4, h5, h6]
  rfl

theorem sha_compress_isSome (st blk : List Nat) :
    (Sha256.compress st blk).isSome := by
  simp only [Sha256.compress]
  obtain ⟨ws, hws⟩ := Option.isSome_iff_exists.mp
    (show (Sha256.get_words blk).isSome from sha_scheduleRec_isSome 48 _)
  simp only [hws]
  obtain ⟨t, ht⟩ := Option.isSome_iff_exists.mp
    (foldlM_option_isSome (Sha256.round ws) (List.range 64)
      (fun t i _ => sha_round_isSome ws t i)
      (st[0]!, st[1]!, st[2]!, st[3]!, st[4]!, st[5]!, st[6]!, st[7]!))
  simp only [ht]
  rfl

/-- Claim C10: rotation-shift safety.  Every left/right rotation executed by
the MD5 and SHA-256 compression functions (including the SHA-256
message-schedule expansion) uses a shift amount strictly between 0 and 32 —
MD5's `S` table entries lie in `4..=23`, SHA-256 uses only fixed constants —
so the `u32` shift expressions never panic and both compression functions
are total on all inputs (they never return the panic value `none`). -/
theorem rotation_shift_safety :
    (∀ i : Nat, i < 64 → 4 ≤ Md5.S[i]! ∧ Md5.S[i]! ≤ 23) ∧
    (∀ (st : Md5.State) (blk : List Nat), (Md5.eat_chunk st blk).isSome) ∧
    (∀ (st blk : List Nat), (Sha256.compress st blk).isSome) :=
  ⟨md5_S_range, md5_eat_chunk_isSome, sha_compress_isSome⟩

/-- Witness for claim C10: the bound instantiated at round 5, and the two
compression functions evaluated on concrete states and the zero block. -/
theorem rotation_shift_safety_witness :
    (5 < 64 ∧ 4 ≤ Md5.S[5]! ∧ Md5.S[5]! ≤ 23) ∧
    (Md5.eat_chunk Md5.init (List.replicate 64 0)).isSome ∧
    (Sha256.compress Sha256.init (List.replicate 64 0)).isSome :=
  ⟨⟨by decide, rotation_shift_safety.1 5 (by decide)⟩,
    rotation_shift_safety.2.1 Md5.init (List.replicate 64 0),
    rotation_shift_safety.2.2 Sha256.init (List.replicate 64 0)⟩

/-! ## Lemmas: hex rendering and parsing (claims C5, C6) -/

theorem hexDigitChar_utf8Size : ∀ n : Nat, n < 16 → (hexDigitChar n).utf8Size = 1 := by
  decide

theorem hexDigitChar_ne_plus : ∀ n : Nat, n < 16 → hexDigitChar n ≠ '+' := by
  decide

theorem to_digit16_hexDigitChar : ∀ n : Nat, n < 16 →
    to_digit16 (hexDigitChar n) = some n := by
  decide

theorem renderHex_ascii (bs : List Nat) (hb : ∀ b ∈ bs, b < 256) :
    ∀ c ∈ renderHex bs, c.utf8Size = 1 := by
  induction bs with
  | nil => intro c hc; simp [renderHex] at hc
  | cons b rest ih =>
    intro c hc
    simp only [renderHex, List.flatMap_cons] at hc
    rcases List.mem_append.mp hc with h | h
    · have hblt := hb b (List.mem_cons_self b rest)
      rcases List.mem_cons.mp h with rfl | h2
      · exact hexDigitChar_utf8Size _ (by omega)
      · rcases List.mem_cons.mp h2 with rfl | h3
        · exact hexDigitChar_utf8Size _ (by omega)
        · simp at h3
    · exact ih (fun x hx => hb x (List.mem_cons_of_mem _ hx)) c h

theorem renderHex_length (bs : List Nat) :
    (renderHex bs).length = 2 * bs.length := by
  induction bs with
  | nil => rfl
  | cons b rest ih =>
    simp only [renderHex, List.flatMap_cons, List.length_append, List.length_cons]
    simp only [renderHex] at ih
    simp only [List.length_cons, List.length_nil]
    omega

theorem strByteLen_ascii (s : List Char) (hs : ∀ c ∈ s, c.utf8Size = 1) :
    strByteLen s = s.length := by
  induction s with
  | nil => rfl
  | cons c cs ih =>
    simp only [strByteLen, List.map_cons, List.sum_cons, List.length_cons,
      hs c (List.mem_cons_self c cs)] at *
    rw [ih (fun x hx => hs x (List.mem_cons_of_mem _ hx))]
    omega

theorem strDropBytes_ascii (s : List Char) (hs : ∀ c ∈ s, c.utf8Size = 1) :
    ∀ n : Nat, n ≤ s.length → strDropBytes s n = some (s.drop n) := by
  induction s with
  | nil =>
    intro n hn
    have : n = 0 := by simpa using hn
    subst this
    rfl
  | cons c cs ih =>
    intro n hn
    cases n with
    | zero => rfl
    | succ k =>
      have hc := hs c (List.mem_cons_self c cs)
      simp only [strDropBytes, hc, if_pos (by omega : (1:Nat) ≤ k + 1)]
      rw [show k + 1 - 1 = k by omega]
      exact ih (fun x hx => hs x (List.mem_cons_of_mem _ hx)) k (by simpa using hn)

theorem strTakeBytes_ascii (s : List Char) (hs : ∀ c ∈ s, c.utf8Size = 1) :
    ∀ n : Nat, n ≤ s.length → strTakeBytes s n = some (s.take n) := by
  induction s with
  | nil =>
    intro n hn
    have : n = 0 := by simpa using hn
    subst this
    rfl
  | cons c cs ih =>
    intro n hn
    cases n with
    | zero => rfl
    | succ k =>
      have hc := hs c (List.mem_cons_self c cs)
      simp only [strTakeBytes, hc, if_pos (by omega : (1:Nat) ≤ k + 1)]
      rw [show k + 1 - 1 = k by omega]
      rw [ih (fun x hx => hs x (List.mem_cons_of_mem _ hx)) k (by simpa using hn)]
      rfl

theorem sliceStr_ascii (s : List Char) (hs : ∀ c ∈ s, c.utf8Size = 1)
    (a b : Nat) (hab : a ≤ b) (hb : b ≤ s.length) :
    sliceStr s a b = some ((s.drop a).take (b - a)) := by
  simp only [sliceStr, strByteLen_ascii s hs]
  rw [if_pos ⟨hab, hb⟩]
  rw [strDropBytes_ascii s hs a (by omega)]
  show strTakeBytes (s.drop a) (b - a) = _
  exact strTakeBytes_ascii (s.drop a)
    (fun x hx => hs x (List.mem_of_mem_drop hx)) (b - a)
    (by simp [List.length_drop]; omega)

theorem from_str_radix_hexPair (b : Nat) (hb : b < 256) :
    from_str_radix_u8_16 [hexDigitChar (b / 16), hexDigitChar (b % 16)] = some b := by
  have hdiv : b / 16 < 16 := by omega
  have hmod : b % 16 < 16 := by omega
  simp only [from_str_radix_u8_16]
  rw [if_neg (hexDigitChar_ne_plus _ hdiv)]
  simp only [fromStrRadixGo, to_digit16_hexDigitChar _ hdiv,
    to_digit16_hexDigitChar _ hmod]
  rw [if_pos (by omega : 0 * 16 + b / 16 ≤ 255)]
  rw [show (0 * 16 + b / 16) * 16 + b % 16 = b by omega]
  rw [if_pos (by omega : b ≤ 255)]

theorem parseBytesLoop_render : ∀ (bs : List Nat) (pre : List Char) (i : Nat),
    (∀ b ∈ bs, b < 256) → (∀ c ∈ pre, c.utf8Size = 1) → pre.length = 2 * i →
    parseBytesLoop (pre ++ renderHex bs) i bs.length = some (.ok bs) := by
  intro bs
  induction bs with
  | nil => intro pre i hb hpre hlen; rfl
  | cons b rest ih =>
    intro pre i hb hpre hlen
    have hblt : b < 256 := hb b (List.mem_cons_self b rest)
    have hpair : ∀ c ∈ [hexDigitChar (b / 16), hexDigitChar (b % 16)],
        c.utf8Size = 1 := by
      intro c hc
      rcases List.mem_cons.mp hc with rfl | hc2
      · exact hexDigitChar_utf8Size _ (by omega)
      · rcases List.mem_cons.mp hc2 with rfl | hc3
        · exact hexDigitChar_utf8Size _ (by omega)
        · simp at hc3
    have hrest : ∀ b2 ∈ rest, b2 < 256 := fun x hx => hb x (List.mem_cons_of_mem _ hx)
    have hrender : renderHex (b :: rest) =
        [hexDigitChar (b / 16), hexDigitChar (b % 16)] ++ renderHex rest := by
      simp [renderHex, List.flatMap_cons]
    have hS : ∀ c ∈ pre ++ renderHex (b :: rest), c.utf8Size = 1 := by
      intro c hc
      rcases List.mem_append.mp hc with h | h
      · exact hpre c h
      · exact renderHex_ascii _ hb c h
    have hslice : sliceStr (pre ++ renderHex (b :: rest)) (2 * i) (2 * i + 2) =
        some [hexDigitChar (b / 16), hexDigitChar (b % 16)] := by
      rw [sliceStr_ascii _ hS (2 * i) (2 * i + 2) (by omega)
        (by simp [List.length_append, renderHex_length]; omega)]
      rw [show 2 * i = pre.length from hlen.symm, List.drop_left]
      rw [hrender, show pre.length + 2 - pre.length = 2 by omega]
      rw [List.take_left' (show ([hexDigitChar (b / 16), hexDigitChar (b % 16)]).length = 2
        from rfl)]
    show parseBytesLoop (pre ++ renderHex (b :: rest)) i (rest.length + 1) = _
    simp only [parseBytesLoop, hslice, from_str_radix_hexPair b hblt]
    have hnext : parseBytesLoop (pre ++ renderHex (b :: rest)) (i + 1) rest.length =
        some (.ok rest) := by
      have : pre ++ renderHex (b :: rest) =
          (pre ++ [hexDigitChar (b / 16), hexDigitChar (b % 16)]) ++ renderHex rest := by
        rw [hrender]
        simp [List.append_assoc]
      rw [this]
      exact ih (pre ++ [hexDigitChar (b / 16), hexDigitChar (b % 16)]) (i + 1) hrest
        (by
          intro c hc
          rcases List.mem_append.mp hc with h | h
          · exact hpre c h
          · exact hpair c h)
        (by simp [List.length_append, hlen]; omega)
    rw [hnext]
    rfl

theorem strByteLen_render (bs : List Nat) (hb : ∀ b ∈ bs, b < 256) :
    strByteLen (renderHex bs) = 2 * bs.length := by
  rw [strByteLen_ascii _ (renderHex_ascii bs hb), renderHex_length]

/-- Claim C6: round-trip.  For every valid digest value — any 16-byte array
for MD5, any 32-byte array for SHA-256 — parsing the rendered lowercase-hex
string succeeds and returns exactly the original bytes, both through
`check.rs`'s `parse_digest_md5`/`parse_digest_sha256` and through
`Digest::from_str`. -/
theorem digest_hex_roundtrip :
    (∀ bs : List Nat, bs.length = 16 → (∀ b ∈ bs, b < 256) →
      Check.parse_digest_md5 (renderHex bs) = some (.ok bs) ∧
      Md5.Digest.from_str (renderHex bs) = some bs) ∧
    (∀ bs : List Nat, bs.length = 32 → (∀ b ∈ bs, b < 256) →
      Check.parse_digest_sha256 (renderHex bs) = some (.ok bs) ∧
      Sha256.Digest.from_str (renderHex bs) = some bs) := by
  have key : ∀ (bs : List Nat), (∀ b ∈ bs, b < 256) →
      parseBytesLoop (renderHex bs) 0 bs.length = some (.ok bs) := by
    intro bs hb
    have := parseBytesLoop_render bs [] 0 hb (by simp) (by simp)
    simpa using this
  constructor
  · intro bs hlen hb
    have hbl : strByteLen (renderHex bs) = 32 := by
      rw [strByteLen_render bs hb, hlen]
    have hloop : parseBytesLoop (renderHex bs) 0 16 = some (.ok bs) := by
      rw [← hlen]
      exact key bs hb
    constructor
    · simp only [Check.parse_digest_md5, Md5.DIGEST_STR_LEN, hbl]
      rw [if_neg (by omega)]
      exact hloop
    · simp only [Md5.Digest.from_str, hloop]
  · intro bs hlen hb
    have hbl : strByteLen (renderHex bs) = 64 := by
      rw [strByteLen_render bs hb, hlen]
    have hloop : parseBytesLoop (renderHex bs) 0 32 = some (.ok bs) := by
      rw [← hlen]
      exact key bs hb
    constructor
    · simp only [Check.parse_digest_sha256, Sha256.DIGEST_STR_LEN, hbl]
      rw [if_neg (by omega)]
      exact hloop
    · simp only [Sha256.Digest.from_str, hloop]

/-- Witness for claim C6 at the concrete digests `[0, …, 15]` (MD5 width)
and `[0, …, 31]` (SHA-256 width). -/
theorem digest_hex_roundtrip_witness :
    ((List.range 16).length = 16 ∧ (∀ b ∈ List.range 16, b < 256) ∧
      (Check.parse_digest_md5 (renderHex (List.range 16)) =
          some (.ok (List.range 16)) ∧
        Md5.Digest.from_str (renderHex (List.range 16)) = some (List.range 16))) ∧
    ((List.range 32).length = 32 ∧ (∀ b ∈ List.range 32, b < 256) ∧
      (Check.parse_digest_sha256 (renderHex (List.range 32)) =
          some (.ok (List.range 32)) ∧
        Sha256.Digest.from_str (renderHex (List.range 32)) = some (List.range 32))) :=
  ⟨⟨by decide, by decide,
    digest_hex_roundtrip.1 (List.range 16) (by decide) (by decide)⟩,
   ⟨by decide, by decide,
    digest_hex_roundtrip.2 (List.range 32) (by decide) (by decide)⟩⟩

theorem parseBytesLoop_ok_of_groups : ∀ (k i : Nat) (s : List Char),
    (∀ j, j < k → ∃ g, sliceStr s (2 * (i + j)) (2 * (i + j) + 2) = some g ∧
      (from_str_radix_u8_16 g).isSome) →
    ∃ ds, parseBytesLoop s i k = some (.ok ds) := by
  intro k
  induction k with
  | zero => intro i s hgood; exact ⟨[], rfl⟩
  | succ k ih =>
    intro i s hgood
    obtain ⟨g, hg, hr⟩ := hgood 0 (by omega)
    obtain ⟨b, hb⟩ := Option.isSome_iff_exists.mp hr
    rw [show 2 * (i + 0) = 2 * i by omega] at hg
    obtain ⟨ds, hds⟩ := ih (i + 1) s (by
      intro j hj
      obtain ⟨g2, hg2, hr2⟩ := hgood (j + 1) (by omega)
      rw [show 2 * (i + (j + 1)) = 2 * (i + 1 + j) by omega] at hg2
      exact ⟨g2, hg2, hr2⟩)
    refine ⟨b :: ds, ?_⟩
    simp only [parseBytesLoop, hg, hb, hds]
    rfl

theorem parseBytesLoop_isSome_of_slices : ∀ (k i : Nat) (s : List Char),
    (∀ j, j < k → (sliceStr s (2 * (i + j)) (2 * (i + j) + 2)).isSome) →
    (parseBytesLoop s i k).isSome := by
  intro k
  induction k with
  | zero => intro i s hsl; rfl
  | succ k ih =>
    intro i s hsl
    obtain ⟨g, hg⟩ := Option.isSome_iff_exists.mp (hsl 0 (by omega))
    rw [show 2 * (i + 0) = 2 * i by omega] at hg
    have hrest : (parseBytesLoop s (i + 1) k).isSome := ih (i + 1) s (by
      intro j hj
      have := hsl (j + 1) (by omega)
      rw [show 2 * (i + (j + 1)) = 2 * (i + 1 + j) by omega] at this
      exact this)
    obtain ⟨r, hr⟩ := Option.isSome_iff_exists.mp hrest
    simp only [parseBytesLoop, hg]
    cases hfsr : from_str_radix_u8_16 g with
    | none => rfl
    | some b =>
      rw [hr]
      rfl

theorem parseBytesLoop_error_of_bad_group : ∀ (k i : Nat) (s : List Char),
    (∀ j, j < k → (sliceStr s (2 * (i + j)) (2 * (i + j) + 2)).isSome) →
    (∃ j, j < k ∧ ∃ g, sliceStr s (2 * (i + j)) (2 * (i + j) + 2) = some g ∧
      from_str_radix_u8_16 g = none) →
    parseBytesLoop s i k = some (.error .ParseByte) := by
  intro k
  induction k with
  | zero => intro i s hsl hbad; obtain ⟨j, hj, _⟩ := hbad; omega
  | succ k ih =>
    intro i s hsl hbad
    obtain ⟨g0, hg0⟩ := Option.isSome_iff_exists.mp (hsl 0 (by omega))
    rw [show 2 * (i + 0) = 2 * i by omega] at hg0
    cases hfsr : from_str_radix_u8_16 g0 with
    | none => simp only [parseBytesLoop, hg0, hfsr]
    | some b =>
      obtain ⟨j, hj, g, hg, hgbad⟩ := hbad
      cases j with
      | zero =>
        rw [show 2 * (i + 0) = 2 * i by omega] at hg
        rw [hg0] at hg
        cases hg
        rw [hfsr] at hgbad
        cases hgbad
      | succ j2 =>
        have hrest : parseBytesLoop s (i + 1) k = some (.error .ParseByte) := by
          apply ih (i + 1) s
          · intro j3 hj3
            have := hsl (j3 + 1) (by omega)
            rw [show 2 * (i + (j3 + 1)) = 2 * (i + 1 + j3) by omega] at this
            exact this
          · refine ⟨j2, by omega, g, ?_, hgbad⟩
            rw [show 2 * (i + 1 + j2) = 2 * (i + (j2 + 1)) by omega]
            exact hg
        simp only [parseBytesLoop, hg0, hfsr, hrest]
        rfl

/-- Claim C5 counterexample: `"+1"` repeated 16 times is a 32-character
string whose 2-character groups are not valid hex bytes (a `'+'` is not a
hex digit), yet `parse_digest_md5` succeeds with the digest `01` repeated —
because `u8::from_str_radix` tolerates a leading `'+'` — instead of
returning an `InvalidHexDigit`-kind error as the claim requires. -/
theorem parse_digest_plus_sign_counterexample :
    Check.parse_digest_md5 "+1+1+1+1+1+1+1+1+1+1+1+1+1+1+1+1".toList =
      some (.ok (List.replicate 16 1)) ∧
    sliceStr "+1+1+1+1+1+1+1+1+1+1+1+1+1+1+1+1".toList 0 2 = some ['+', '1'] ∧
    specValidHexByte ['+', '1'] = false := by
  decide

/-- Claim C5 (amended): hex-digest parsing failure semantics of
`parse_digest_md5` / `parse_digest_sha256`.  For every input string, a byte
length other than twice the digest size yields the `InvalidStrLen` error
(of `MalformedDigest` kind) with no panic.  When the length matches and
every 2-character group lies on char boundaries (in particular for every
ASCII input; a group straddling a multi-byte character panics in the Rust
code instead), the parser does not panic, succeeds iff every group is
accepted by `u8::from_str_radix(_, 16)` — which takes two hex digits but
also tolerates a leading `'+'` — and otherwise returns the `ParseByte`
(`InvalidHexDigit`-kind) error. -/
theorem parse_digest_error_semantics :
    (∀ s : List Char, strByteLen s ≠ 32 →
      Check.parse_digest_md5 s = some (.error (.InvalidStrLen 32 (strByteLen s)))) ∧
    (∀ s : List Char, strByteLen s ≠ 64 →
      Check.parse_digest_sha256 s = some (.error (.InvalidStrLen 64 (strByteLen s)))) ∧
    (∀ s : List Char, strByteLen s = 32 →
      (∀ i, i < 16 → (sliceStr s (2 * i) (2 * i + 2)).isSome) →
      (Check.parse_digest_md5 s).isSome ∧
      ((∀ i g, i < 16 → sliceStr s (2 * i) (2 * i + 2) = some g →
          (from_str_radix_u8_16 g).isSome) →
        ∃ d, Check.parse_digest_md5 s = some (.ok d)) ∧
      ((∃ i g, i < 16 ∧ sliceStr s (2 * i) (2 * i + 2) = some g ∧
          from_str_radix_u8_16 g = none) →
        Check.parse_digest_md5 s = some (.error .ParseByte))) ∧
    (∀ s : List Char, strByteLen s = 64 →
      (∀ i, i < 32 → (sliceStr s (2 * i) (2 * i + 2)).isSome) →
      (Check.parse_digest_sha256 s).isSome ∧
      ((∀ i g, i < 32 → sliceStr s (2 * i) (2 * i + 2) = some g →
          (from_str_radix_u8_16 g).isSome) →
        ∃ d, Check.parse_digest_sha256 s = some (.ok d)) ∧
      ((∃ i g, i < 32 ∧ sliceStr s (2 * i) (2 * i + 2) = some g ∧
          from_str_radix_u8_16 g = none) →
        Check.parse_digest_sha256 s = some (.error .ParseByte))) := by
  refine ⟨fun s hne => ?_, fun s hne => ?_, fun s hlen hsl => ?_, fun s hlen hsl => ?_⟩
  · simp only [Check.parse_digest_md5, Md5.DIGEST_STR_LEN]
    rw [if_pos hne]
  · simp only [Check.parse_digest_sha256, Sha256.DIGEST_STR_LEN]
    rw [if_pos hne]
  · have hunf : Check.parse_digest_md5 s = parseBytesLoop s 0 16 := by
      simp only [Check.parse_digest_md5, Md5.DIGEST_STR_LEN, hlen]
      rw [if_neg (by omega)]
    have hsl0 : ∀ j, j < 16 → (sliceStr s (2 * (0 + j)) (2 * (0 + j) + 2)).isSome := by
      intro j hj
      simpa using hsl j hj
    refine ⟨?_, fun hall => ?_, fun hbad => ?_⟩
    · rw [hunf]
      exact parseBytesLoop_isSome_of_slices 16 0 s hsl0
    · rw [hunf]
      refine parseBytesLoop_ok_of_groups 16 0 s ?_
      intro j hj
      obtain ⟨g, hg⟩ := Option.isSome_iff_exists.mp (hsl0 j hj)
      refine ⟨g, hg, hall j g hj ?_⟩
      simpa using hg
    · rw [hunf]
      refine parseBytesLoop_error_of_bad_group 16 0 s hsl0 ?_
      obtain ⟨i, g, hi, hg, hr⟩ := hbad
      exact ⟨i, hi, g, by simpa using hg, hr⟩
  · have hunf : Check.parse_digest_sha256 s = parseBytesLoop s 0 32 := by
      simp only [Check.parse_digest_sha256, Sha256.DIGEST_STR_LEN, hlen]
      rw [if_neg (by omega)]
    have hsl0 : ∀ j, j < 32 → (sliceStr s (2 * (0 + j)) (2 * (0 + j) + 2)).isSome := by
      intro j hj
      simpa using hsl j hj
    refine ⟨?_, fun hall => ?_, fun hbad => ?_⟩
    · rw [hunf]
      exact parseBytesLoop_isSome_of_slices 32 0 s hsl0
    · rw [hunf]
      refine parseBytesLoop_ok_of_groups 32 0 s ?_
      intro j hj
      obtain ⟨g, hg⟩ := Option.isSome_iff_exists.mp (hsl0 j hj)
      refine ⟨g, hg, hall j g hj ?_⟩
      simpa using hg
    · rw [hunf]
      refine parseBytesLoop_error_of_bad_group 32 0 s hsl0 ?_
      obtain ⟨i, g, hi, hg, hr⟩ := hbad
      exact ⟨i, hi, g, by simpa using hg, hr⟩

/-- Witness for the amended claim C5: the 3-character string `"abc"` has
byte length 3 ≠ 32 and parsing it as an MD5 digest returns the length
error. -/
theorem parse_digest_error_semantics_witness :
    strByteLen "abc".toList ≠ 32 ∧
    Check.parse_digest_md5 "abc".toList =
      some (.error (.InvalidStrLen 32 (strByteLen "abc".toList))) :=
  ⟨by decide, parse_digest_error_semantics.1 "abc".toList (by decide)⟩

/-- Claim C8 exhibit (code bug in `src/hash/check.rs`): the line
`"d41d8cd98f00b204e9800998ecf8427e  f"` matches only the MD5 GNU-style
pattern — the SHA-256 GNU and BSD patterns reject it — yet
`parse_checksum_line` tags it `hash::Func::SHA256`, so digest parsing fails
with the SHA-256 length error `InvalidStrLen 64 32` instead of producing
`hash::Digest::MD5` as the claim (and the spec's intent) requires. -/
theorem md5_gnu_line_misparsed :
    gnuStyleMatch 64 "d41d8cd98f00b204e9800998ecf8427e  f".toList = none ∧
    bsdStyleMatch "SHA256".toList 64 "d41d8cd98f00b204e9800998ecf8427e  f".toList
      = none ∧
    gnuStyleMatch 32 "d41d8cd98f00b204e9800998ecf8427e  f".toList =
      some ("d41d8cd98f00b204e9800998ecf8427e".toList, "f".toList) ∧
    Check.parse_checksum_line "d41d8cd98f00b204e9800998ecf8427e  f".toList =
      some (.error (.ParseDigest (.InvalidStrLen 64 32))) := by
  decide
